import Mathlib

/-!
Verification of the GCal2Discord reconciliation engine (src/main.py) against its
natural-language specification.

The Python program is shallowly embedded: each relevant Python function is
translated into an executable Lean definition over explicit data types.
Python dictionaries with a fixed key set become structures; optional / possibly
missing keys become Option fields; Python exceptions become Except results;
the Discord HTTP API and the wall clock are modelled as explicit oracles and
response traces.  All definitions are computable so that concrete witnesses
evaluate by decide / rfl.
-/

namespace GCal2Discord

/-! ## Basic string utilities (modelling Python str operations) -/

/-- Python str.lower restricted to the per-character lowering used here
(ASCII letters; other characters are unchanged). -/
def toLowerStr (s : String) : String :=
  String.mk (s.data.map Char.toLower)

/-- listStarts s p is true when p is a prefix of s (Python str.startswith). -/
def listStarts : List Char → List Char → Bool
  | _, [] => true
  | [], _ :: _ => false
  | c :: cs, p :: ps => c = p && listStarts cs ps

/-- listIncludes s p is true when p occurs as a contiguous substring of s
(Python operator: p in s). -/
def listIncludes : List Char → List Char → Bool
  | [], p => p.isEmpty
  | c :: cs, p => listStarts (c :: cs) p || listIncludes cs p

/-- lastN n l is the list of the last n elements of l (Python slice l[-n:],
which returns all of l when l is shorter than n). -/
def lastN (n : Nat) (l : List Char) : List Char :=
  l.drop (l.length - n)

/-- listEnds s p is true when p is a suffix of s (Python str.endswith). -/
def listEnds (s p : List Char) : Bool :=
  lastN p.length s = p

/-- strIncludes s p: substring test on strings. -/
def strIncludes (s p : String) : Bool := listIncludes s.data p.data

/-- strStarts s p: prefix test on strings. -/
def strStarts (s p : String) : Bool := listStarts s.data p.data

/-- strEnds s p: suffix test on strings. -/
def strEnds (s p : String) : Bool := listEnds s.data p.data

/-! ## Source-event data model

A Google Calendar event as consumed by main.py.  Keys that the code reads
with dict.get (and which may be absent) are Option fields. -/

/-- The value of event["start"] / event["end"]: a dict with optional
"dateTime" and "date" keys. -/
structure EventTime where
  dateTime : Option String
  date : Option String
deriving DecidableEq, Repr

/-- event["creator"]: a dict with an optional "email" key. -/
structure Creator where
  email : Option String
deriving DecidableEq, Repr

/-- One entry of event["attendees"]. -/
structure Attendee where
  email : Option String
deriving DecidableEq, Repr

/-- A source calendar event.  id is always present in Google API responses;
everything else is read defensively (or with raising [] access) by main.py,
so those keys are Option fields.  end is a Lean keyword, hence end_. -/
structure Event where
  id : String
  summary : Option String
  description : Option String
  location : Option String
  start : Option EventTime
  end_ : Option EventTime
  creator : Option Creator
  attendees : Option (List Attendee)
deriving DecidableEq, Repr

/-! ## Event filtering (should_sync_event, src/main.py lines 59-129) -/

/-- var.EVENT_FILTERS: a dict of optional filter lists.  A key that is absent
from the dict is a none field. -/
structure FilterConfig where
  title_contains : Option (List String)
  title_starts_with : Option (List String)
  title_ends_with : Option (List String)
  description_contains : Option (List String)
  location_contains : Option (List String)
  creator_email : Option (List String)
  attendee_email : Option (List String)
  exclude_title_contains : Option (List String)
  exclude_description_contains : Option (List String)
deriving DecidableEq, Repr

/-- The all-absent filter dict. -/
def FilterConfig.empty : FilterConfig :=
  ⟨none, none, none, none, none, none, none, none, none⟩

/-- Helper for the pattern: if key in filters: for x in filters[key]:
if test x: return b.  Evaluates to whether any list entry passes. -/
def anyKeyword (entries : Option (List String)) (test : String → Bool) : Bool :=
  match entries with
  | none => false
  | some l => l.any test

/-- should_sync_event (main.py 59-129).  filters is none when var has no
EVENT_FILTERS attribute or the dict is empty (both make the Python guard
"not var.EVENT_FILTERS" select every event).  The translation preserves the
early-return structure of the original: each inclusion check returns True
immediately, the exclusion checks run only afterwards, and the fall-through
result is False. -/
def should_sync_event (filters? : Option FilterConfig) (event : Event) : Bool :=
  match filters? with
  | none => true
  | some filters =>
    let event_title := toLowerStr (event.summary.getD "")
    let event_description := toLowerStr (event.description.getD "")
    let event_location := toLowerStr (event.location.getD "")
    if anyKeyword filters.title_contains
        (fun keyword => strIncludes event_title (toLowerStr keyword)) then true
    else if anyKeyword filters.title_starts_with
        (fun p => strStarts event_title (toLowerStr p)) then true
    else if anyKeyword filters.title_ends_with
        (fun suffix => strEnds event_title (toLowerStr suffix)) then true
    else if anyKeyword filters.description_contains
        (fun keyword => strIncludes event_description (toLowerStr keyword)) then true
    else if anyKeyword filters.location_contains
        (fun keyword => strIncludes event_location (toLowerStr keyword)) then true
    else if anyKeyword filters.creator_email
        (fun email => toLowerStr email
          = toLowerStr ((event.creator.map (fun c => c.email.getD "")).getD "")) then true
    else if anyKeyword filters.attendee_email
        (fun filter_email =>
          ((event.attendees.getD []).map (fun a => toLowerStr (a.email.getD ""))).contains
            (toLowerStr filter_email)) then true
    else if anyKeyword filters.exclude_title_contains
        (fun keyword => strIncludes event_title (toLowerStr keyword)) then false
    else if anyKeyword filters.exclude_description_contains
        (fun keyword => strIncludes event_description (toLowerStr keyword)) then false
    else false

/-- The eligibility predicate the specification describes (Design-notes
OR-then-exclude semantics, written from the spec words, for comparison with
the code): inclusion clauses are OR-combined, and any exclusion-clause match
vetoes the result even when an inclusion clause matched. -/
def should_sync_event_orThenExclude (filters? : Option FilterConfig) (event : Event) : Bool :=
  match filters? with
  | none => true
  | some filters =>
    let event_title := toLowerStr (event.summary.getD "")
    let event_description := toLowerStr (event.description.getD "")
    let event_location := toLowerStr (event.location.getD "")
    let included :=
      anyKeyword filters.title_contains
        (fun keyword => strIncludes event_title (toLowerStr keyword)) ||
      anyKeyword filters.title_starts_with
        (fun p => strStarts event_title (toLowerStr p)) ||
      anyKeyword filters.title_ends_with
        (fun suffix => strEnds event_title (toLowerStr suffix)) ||
      anyKeyword filters.description_contains
        (fun keyword => strIncludes event_description (toLowerStr keyword)) ||
      anyKeyword filters.location_contains
        (fun keyword => strIncludes event_location (toLowerStr keyword)) ||
      anyKeyword filters.creator_email
        (fun email => toLowerStr email
          = toLowerStr ((event.creator.map (fun c => c.email.getD "")).getD "")) ||
      anyKeyword filters.attendee_email
        (fun filter_email =>
          ((event.attendees.getD []).map (fun a => toLowerStr (a.email.getD ""))).contains
            (toLowerStr filter_email))
    let excluded :=
      anyKeyword filters.exclude_title_contains
        (fun keyword => strIncludes event_title (toLowerStr keyword)) ||
      anyKeyword filters.exclude_description_contains
        (fun keyword => strIncludes event_description (toLowerStr keyword))
    included && !excluded

/-- The inclusion-only predicate: OR of the seven inclusion clauses, true when
no filters are configured. -/
def should_sync_event_inclusionOnly (filters? : Option FilterConfig) (event : Event) : Bool :=
  match filters? with
  | none => true
  | some filters =>
    let event_title := toLowerStr (event.summary.getD "")
    let event_description := toLowerStr (event.description.getD "")
    let event_location := toLowerStr (event.location.getD "")
    anyKeyword filters.title_contains
      (fun keyword => strIncludes event_title (toLowerStr keyword)) ||
    anyKeyword filters.title_starts_with
      (fun p => strStarts event_title (toLowerStr p)) ||
    anyKeyword filters.title_ends_with
      (fun suffix => strEnds event_title (toLowerStr suffix)) ||
    anyKeyword filters.description_contains
      (fun keyword => strIncludes event_description (toLowerStr keyword)) ||
    anyKeyword filters.location_contains
      (fun keyword => strIncludes event_location (toLowerStr keyword)) ||
    anyKeyword filters.creator_email
      (fun email => toLowerStr email
        = toLowerStr ((event.creator.map (fun c => c.email.getD "")).getD "")) ||
    anyKeyword filters.attendee_email
      (fun filter_email =>
        ((event.attendees.getD []).map (fun a => toLowerStr (a.email.getD ""))).contains
          (toLowerStr filter_email))

/-! ## Claim C2 -/

/-- Filter configuration whose inclusion and exclusion lists share the keyword
"party". -/
def c2Filters : FilterConfig :=
  { FilterConfig.empty with
      title_contains := some ["party"]
      exclude_title_contains := some ["party"] }

/-- An event whose title contains the keyword "party". -/
def c2Event : Event :=
  { id := "g1", summary := some "Office Party", description := none, location := none,
    start := none, end_ := none, creator := none, attendees := none }

/-- C2 counterexample: an event matching both an inclusion clause and an
exclusion clause is synchronized by the code (should_sync_event returns true),
while the claimed OR-then-exclude semantics would reject it.  The inclusion
checks in main.py lines 75-115 return True before the exclusion checks at
lines 118-126 are ever reached. -/
theorem spec_c2_counterexample :
    should_sync_event (some c2Filters) c2Event = true ∧
    should_sync_event_orThenExclude (some c2Filters) c2Event = false := by
  exact ⟨by decide, by decide⟩

/-- C2 (amended): the eligibility predicate OR-combines the inclusion clauses
(title/description/location contains, title starts-with/ends-with, creator and
attendee email) and the exclusion clauses never influence the result: an event
matching any inclusion clause is eligible even if it also matches an exclusion
clause, an event matching no inclusion clause (when filters are configured) is
not eligible — whether or not an exclusion clause matches — and with no
filters configured every event is eligible.  Formally, should_sync_event
coincides with the inclusion-only OR predicate. -/
theorem spec_c2 (filters? : Option FilterConfig) (event : Event) :
    should_sync_event filters? event = should_sync_event_inclusionOnly filters? event := by
  cases filters? with
  | none => rfl
  | some filters =>
    simp only [should_sync_event, should_sync_event_inclusionOnly]
    split_ifs with h1 h2 h3 h4 h5 h6 h7 h8 h9 <;>
      simp_all

/-! ## Hyperlink normalization (parse_html_links, src/main.py lines 131-153)

The Python code substitutes the regular expression
a-tag with \s+, href="([^"]+)", [^>]*, >([^<]+), closing a-tag
(flags=re.IGNORECASE) by "URL (TEXT)".  On this pattern every quantifier is
forced (each repeated class excludes the character that must follow it), so
re.sub is equivalent to the deterministic left-to-right scanner below:
at each position try the anchor pattern; on success emit the replacement and
continue after the match, otherwise copy one character.  Case-insensitivity
only affects letters, modelled by per-character lower/upper alternatives. -/

/-- Characters of the regex class for whitespace (ASCII range). -/
def isSpaceChar (c : Char) : Bool :=
  c = ' ' || c = '\t' || c = '\n' || c = '\r' || c = '\x0B' || c = '\x0C'

/-- Consume one character that equals either alternative (case-insensitive
literal; non-letters carry the same character twice). -/
def eatLitCI : List (Char × Char) → List Char → Option (List Char)
  | [], cs => some cs
  | _ :: _, [] => none
  | (lo, up) :: ps, c :: cs => if c = lo || c = up then eatLitCI ps cs else none

/-- Consume one exact character. -/
def eatChar (ch : Char) : List Char → Option (List Char)
  | c :: cs => if c = ch then some cs else none
  | [] => none

/-- Consume a nonempty maximal run of characters satisfying p (regex class+). -/
def eatWhile1 (p : Char → Bool) (cs : List Char) : Option (List Char × List Char) :=
  if (cs.takeWhile p).isEmpty then none else some (cs.takeWhile p, cs.dropWhile p)

/-- The literal opening of the a tag. -/
def anchorOpen : List (Char × Char) := [('<', '<'), ('a', 'A')]

/-- The literal href attribute up to its opening quote. -/
def anchorHref : List (Char × Char) :=
  [('h', 'H'), ('r', 'R'), ('e', 'E'), ('f', 'F'), ('=', '='), ('"', '"')]

/-- The literal closing a tag. -/
def anchorClose : List (Char × Char) := [('<', '<'), ('/', '/'), ('a', 'A'), ('>', '>')]

/-- Attempt the anchor regex at the head of cs.  Returns (url, text, rest)
on success.  Mirrors the pattern of main.py line 143. -/
def tryMatchAnchor (cs : List Char) : Option (List Char × List Char × List Char) :=
  match eatLitCI anchorOpen cs with
  | none => none
  | some r1 =>
    match eatWhile1 isSpaceChar r1 with
    | none => none
    | some (_, r2) =>
      match eatLitCI anchorHref r2 with
      | none => none
      | some r3 =>
        match eatWhile1 (fun c => !(c = '"')) r3 with
        | none => none
        | some (url, r4) =>
          match eatChar '"' r4 with
          | none => none
          | some r5 =>
            match eatChar '>' (r5.dropWhile (fun c => !(c = '>'))) with
            | none => none
            | some r7 =>
              match eatWhile1 (fun c => !(c = '<')) r7 with
              | none => none
              | some (txt, r8) =>
                match eatLitCI anchorClose r8 with
                | none => none
                | some r9 => some (url, txt, r9)

/-- The anchor shape exactly as the specification words it: a-tag, one space,
href="URL" immediately followed by the closing bracket, TEXT, closing a-tag,
with case-insensitive tag matching and nothing else tolerated.  Written from
the spec for comparison with the code pattern above. -/
def tryMatchAnchorExact (cs : List Char) : Option (List Char × List Char × List Char) :=
  match eatLitCI anchorOpen cs with
  | none => none
  | some r1 =>
    match eatChar ' ' r1 with
    | none => none
    | some r2 =>
      match eatLitCI anchorHref r2 with
      | none => none
      | some r3 =>
        match eatWhile1 (fun c => !(c = '"')) r3 with
        | none => none
        | some (url, r4) =>
          match eatChar '"' r4 with
          | none => none
          | some r5 =>
            match eatChar '>' r5 with
            | none => none
            | some r7 =>
              match eatWhile1 (fun c => !(c = '<')) r7 with
              | none => none
              | some (txt, r8) =>
                match eatLitCI anchorClose r8 with
                | none => none
                | some r9 => some (url, txt, r9)

/-- The re.sub scanning loop, fueled: on a match emit URL (TEXT) and resume
after the match, otherwise copy one character.  Fuel at least the input
length is always sufficient because a match consumes at least one character. -/
def rewriteLinksF (matchFn : List Char → Option (List Char × List Char × List Char)) :
    Nat → List Char → List Char
  | 0, _ => []
  | fuel + 1, cs =>
    match matchFn cs with
    | some (url, txt, rest) =>
      url ++ ' ' :: '(' :: (txt ++ ')' :: rewriteLinksF matchFn fuel rest)
    | none =>
      match cs with
      | [] => []
      | c :: rest2 => c :: rewriteLinksF matchFn fuel rest2

/-- The scan with the code pattern, at its canonical fuel. -/
def parseLinks (cs : List Char) : List Char :=
  rewriteLinksF tryMatchAnchor cs.length cs

/-- parse_html_links (main.py 131-153).  The empty-text early return agrees
with scanning the empty list. -/
def parse_html_links (text : String) : String :=
  String.mk (parseLinks text.data)

/-- The rewriting the specification describes, built from the exact-shape
pattern (spec words), for comparison with parse_html_links. -/
def parse_html_links_exactShape (text : String) : String :=
  String.mk (rewriteLinksF tryMatchAnchorExact text.data.length text.data)

/-! ### Structural facts about the anchor scanner -/

theorem eatLitCI_length (ps : List (Char × Char)) :
    ∀ (cs r : List Char), eatLitCI ps cs = some r → cs.length = ps.length + r.length := by
  induction ps with
  | nil =>
    intro cs r h
    simp only [eatLitCI, Option.some.injEq] at h
    simp [h]
  | cons p ps ih =>
    intro cs r h
    match cs with
    | [] => simp [eatLitCI] at h
    | c :: cs2 =>
      obtain ⟨lo, up⟩ := p
      simp only [eatLitCI] at h
      split at h
      · have h2 := ih cs2 r h
        simp [h2]
        omega
      · exact absurd h (by simp)

theorem eatChar_length (ch : Char) (cs r : List Char)
    (h : eatChar ch cs = some r) : cs.length = 1 + r.length := by
  match cs with
  | [] => simp [eatChar] at h
  | c :: cs2 =>
    simp only [eatChar] at h
    split at h
    · simp only [Option.some.injEq] at h
      simp [← h]
      omega
    · exact absurd h (by simp)

theorem eatWhile1_parts (p : Char → Bool) (cs pre r : List Char)
    (h : eatWhile1 p cs = some (pre, r)) :
    pre = cs.takeWhile p ∧ r = cs.dropWhile p ∧ pre ≠ [] ∧ pre ++ r = cs := by
  simp only [eatWhile1] at h
  split at h
  · exact absurd h (by simp)
  · next hne =>
    simp only [Option.some.injEq, Prod.mk.injEq] at h
    obtain ⟨h1, h2⟩ := h
    have hpre : pre ≠ [] := by
      intro hpe
      rw [hpe] at h1
      exact hne (by simp [h1])
    refine ⟨h1.symm, h2.symm, hpre, ?_⟩
    rw [← h1, ← h2]
    exact List.takeWhile_append_dropWhile p cs

theorem eatWhile1_length (p : Char → Bool) (cs pre r : List Char)
    (h : eatWhile1 p cs = some (pre, r)) :
    cs.length = pre.length + r.length ∧ 1 ≤ pre.length := by
  obtain ⟨_, _, h3, h4⟩ := eatWhile1_parts p cs pre r h
  constructor
  · rw [← h4]
    simp
  · cases pre with
    | nil => exact absurd rfl h3
    | cons a l => simp

theorem dropWhileLenLe (p : Char → Bool) (cs : List Char) :
    (cs.dropWhile p).length ≤ cs.length := by
  have h := List.takeWhile_append_dropWhile p cs
  have h2 : (cs.takeWhile p).length + (cs.dropWhile p).length = cs.length := by
    rw [← List.length_append, h]
  omega

theorem tryMatchAnchor_consumes (cs url txt rest : List Char)
    (h : tryMatchAnchor cs = some (url, txt, rest)) : rest.length < cs.length := by
  unfold tryMatchAnchor at h
  cases h1 : eatLitCI anchorOpen cs with
  | none => simp [h1] at h
  | some r1 =>
  simp only [h1] at h
  cases h2 : eatWhile1 isSpaceChar r1 with
  | none => simp [h2] at h
  | some pr2 =>
  obtain ⟨ws, r2⟩ := pr2
  simp only [h2] at h
  cases h3 : eatLitCI anchorHref r2 with
  | none => simp [h3] at h
  | some r3 =>
  simp only [h3] at h
  cases h4 : eatWhile1 (fun c => !(c = '"')) r3 with
  | none => simp [h4] at h
  | some pr4 =>
  obtain ⟨url2, r4⟩ := pr4
  simp only [h4] at h
  cases h5 : eatChar '"' r4 with
  | none => simp [h5] at h
  | some r5 =>
  simp only [h5] at h
  cases h7 : eatChar '>' (r5.dropWhile (fun c => !(c = '>'))) with
  | none => simp [h7] at h
  | some r7 =>
  simp only [h7] at h
  cases h8 : eatWhile1 (fun c => !(c = '<')) r7 with
  | none => simp [h8] at h
  | some pr8 =>
  obtain ⟨txt2, r8⟩ := pr8
  simp only [h8] at h
  cases h9 : eatLitCI anchorClose r8 with
  | none => simp [h9] at h
  | some r9 =>
  simp only [h9, Option.some.injEq, Prod.mk.injEq] at h
  obtain ⟨hu, ht, hr⟩ := h
  rw [← hr]
  have e1 := eatLitCI_length anchorOpen cs r1 h1
  have e2 := eatWhile1_length isSpaceChar r1 ws r2 h2
  have e3 := eatLitCI_length anchorHref r2 r3 h3
  have e4 := eatWhile1_length (fun c => !(c = '"')) r3 url2 r4 h4
  have e5 := eatChar_length '"' r4 r5 h5
  have e6 := dropWhileLenLe (fun c => !(c = '>')) r5
  have e7 := eatChar_length '>' (r5.dropWhile (fun c => !(c = '>'))) r7 h7
  have e8 := eatWhile1_length (fun c => !(c = '<')) r7 txt2 r8 h8
  have e9 := eatLitCI_length anchorClose r8 r9 h9
  have hao : anchorOpen.length = 2 := rfl
  have hah : anchorHref.length = 6 := rfl
  have hac : anchorClose.length = 4 := rfl
  omega

theorem rewriteLinksF_nil
    (matchFn : List Char → Option (List Char × List Char × List Char))
    (hm : ∀ cs u t r, matchFn cs = some (u, t, r) → r.length < cs.length) :
    ∀ f, rewriteLinksF matchFn f [] = [] := by
  intro f
  cases f with
  | zero => rfl
  | succ g =>
    cases hmm : matchFn [] with
    | none => simp [rewriteLinksF, hmm]
    | some trip =>
      obtain ⟨u, t, r⟩ := trip
      have := hm [] u t r hmm
      simp at this

theorem rewriteLinksF_stable
    (matchFn : List Char → Option (List Char × List Char × List Char))
    (hm : ∀ cs u t r, matchFn cs = some (u, t, r) → r.length < cs.length) :
    ∀ f1 f2 cs, cs.length ≤ f1 → cs.length ≤ f2 →
      rewriteLinksF matchFn f1 cs = rewriteLinksF matchFn f2 cs := by
  intro f1
  induction f1 with
  | zero =>
    intro f2 cs h1 _
    have hcs : cs = [] := by
      cases cs with
      | nil => rfl
      | cons a l => simp at h1
    subst hcs
    rw [rewriteLinksF_nil matchFn hm, rewriteLinksF_nil matchFn hm]
  | succ g1 ih =>
    intro f2 cs h1 h2
    cases cs with
    | nil => rw [rewriteLinksF_nil matchFn hm, rewriteLinksF_nil matchFn hm]
    | cons c rest =>
      cases f2 with
      | zero => simp at h2
      | succ g2 =>
        simp only [List.length_cons] at h1 h2
        simp only [rewriteLinksF]
        cases hmm : matchFn (c :: rest) with
        | some trip =>
          obtain ⟨u, t, r⟩ := trip
          have hr := hm _ _ _ _ hmm
          simp only [List.length_cons] at hr
          simp only [hmm]
          have hrec : rewriteLinksF matchFn g1 r = rewriteLinksF matchFn g2 r :=
            ih g2 r (by omega) (by omega)
          rw [hrec]
        | none =>
          simp only [hmm]
          have hrec : rewriteLinksF matchFn g1 rest = rewriteLinksF matchFn g2 rest :=
            ih g2 rest (by omega) (by omega)
          rw [hrec]

theorem parseLinks_match (cs url txt rest : List Char)
    (h : tryMatchAnchor cs = some (url, txt, rest)) :
    parseLinks cs = url ++ ' ' :: '(' :: (txt ++ ')' :: parseLinks rest) := by
  have hlt := tryMatchAnchor_consumes cs url txt rest h
  cases cs with
  | nil => simp at hlt
  | cons c cs2 =>
    simp only [List.length_cons] at hlt
    unfold parseLinks
    simp only [List.length_cons, rewriteLinksF, h]
    have hst := rewriteLinksF_stable tryMatchAnchor tryMatchAnchor_consumes
      cs2.length rest.length rest (by omega) (by omega)
    rw [hst]

theorem parseLinks_nomatch (c : Char) (cs : List Char)
    (h : tryMatchAnchor (c :: cs) = none) :
    parseLinks (c :: cs) = c :: parseLinks cs := by
  unfold parseLinks
  simp only [List.length_cons, rewriteLinksF, h]

theorem tryMatchAnchor_head_ne (c : Char) (cs : List Char) (h : c ≠ '<') :
    tryMatchAnchor (c :: cs) = none := by
  unfold tryMatchAnchor
  simp [eatLitCI, anchorOpen, h]

theorem takeWhile_append_cons (p : Char → Bool) (y : Char) (ys : List Char)
    (hy : p y = false) :
    ∀ (xs : List Char), (∀ x ∈ xs, p x = true) → (xs ++ y :: ys).takeWhile p = xs := by
  intro xs
  induction xs with
  | nil => intro _; simp [List.takeWhile_cons, hy]
  | cons a l ih =>
    intro hx
    have ha : p a = true := hx a (by simp)
    have hrec := ih (fun x hm => hx x (by simp [hm]))
    simp [List.takeWhile_cons, ha, hrec]

theorem dropWhile_append_cons (p : Char → Bool) (y : Char) (ys : List Char)
    (hy : p y = false) :
    ∀ (xs : List Char), (∀ x ∈ xs, p x = true) → (xs ++ y :: ys).dropWhile p = y :: ys := by
  intro xs
  induction xs with
  | nil => intro _; simp [List.dropWhile_cons, hy]
  | cons a l ih =>
    intro hx
    have ha : p a = true := hx a (by simp)
    have hrec := ih (fun x hm => hx x (by simp [hm]))
    simp [List.dropWhile_cons, ha, hrec]

theorem eatWhile1_append_cons (p : Char → Bool) (y : Char) (ys xs : List Char)
    (hy : p y = false) (hxs : ∀ x ∈ xs, p x = true) (hne : xs ≠ []) :
    eatWhile1 p (xs ++ y :: ys) = some (xs, y :: ys) := by
  have h1 := takeWhile_append_cons p y ys hy xs hxs
  have h2 := dropWhile_append_cons p y ys hy xs hxs
  have h3 : xs.isEmpty = false := by
    cases xs with
    | nil => exact absurd rfl hne
    | cons a l => rfl
  simp [eatWhile1, h1, h2, h3]

theorem tryMatchAnchor_hit (u attrs t rest : List Char)
    (hu0 : u ≠ []) (hu : ∀ c ∈ u, c ≠ '"')
    (ha : ∀ c ∈ attrs, c ≠ '>')
    (ht0 : t ≠ []) (ht : ∀ c ∈ t, c ≠ '<') :
    tryMatchAnchor ('<' :: 'a' :: ' ' :: 'h' :: 'r' :: 'e' :: 'f' :: '=' :: '"' ::
        (u ++ '"' :: (attrs ++ '>' :: (t ++ '<' :: '/' :: 'a' :: '>' :: rest))))
      = some (u, t, rest) := by
  have e4 : eatWhile1 (fun c => !(c = '"'))
      (u ++ '"' :: (attrs ++ '>' :: (t ++ '<' :: '/' :: 'a' :: '>' :: rest)))
      = some (u, '"' :: (attrs ++ '>' :: (t ++ '<' :: '/' :: 'a' :: '>' :: rest))) :=
    eatWhile1_append_cons _ _ _ _ (by simp)
      (fun x hm => by simp [hu x hm]) hu0
  have e6 : (attrs ++ '>' :: (t ++ '<' :: '/' :: 'a' :: '>' :: rest)).dropWhile
      (fun c => !(c = '>')) = '>' :: (t ++ '<' :: '/' :: 'a' :: '>' :: rest) :=
    dropWhile_append_cons _ _ _ (by simp)
      attrs (fun x hm => by simp [ha x hm])
  have e8 : eatWhile1 (fun c => !(c = '<'))
      (t ++ '<' :: '/' :: 'a' :: '>' :: rest)
      = some (t, '<' :: '/' :: 'a' :: '>' :: rest) :=
    eatWhile1_append_cons _ _ _ _ (by simp)
      (fun x hm => by simp [ht x hm]) ht0
  have s1 : ∀ X : List Char, eatLitCI anchorOpen ('<' :: 'a' :: X) = some X := fun X => rfl
  have s2 : ∀ X : List Char,
      eatWhile1 isSpaceChar (' ' :: 'h' :: X) = some ([' '], 'h' :: X) := fun X => rfl
  have s3 : ∀ X : List Char,
      eatLitCI anchorHref ('h' :: 'r' :: 'e' :: 'f' :: '=' :: '"' :: X) = some X :=
    fun X => rfl
  have s5 : ∀ X : List Char, eatChar '"' ('"' :: X) = some X := fun X => rfl
  have s7 : ∀ X : List Char, eatChar '>' ('>' :: X) = some X := fun X => rfl
  have s9 : ∀ X : List Char,
      eatLitCI anchorClose ('<' :: '/' :: 'a' :: '>' :: X) = some X := fun X => rfl
  unfold tryMatchAnchor
  simp only [s1, s2, s3, e4, s5, e6, s7, e8, s9]

theorem parseLinks_verbatim (cs : List Char) (h : ∀ c ∈ cs, c ≠ '<') :
    parseLinks cs = cs := by
  induction cs with
  | nil => rfl
  | cons c rest ih =>
    have hc : c ≠ '<' := h c (by simp)
    rw [parseLinks_nomatch c rest (tryMatchAnchor_head_ne c rest hc)]
    rw [ih (fun x hm => h x (by simp [hm]))]

theorem parseLinks_hit (u attrs t : List Char)
    (hu0 : u ≠ []) (hu : ∀ c ∈ u, c ≠ '"')
    (ha : ∀ c ∈ attrs, c ≠ '>')
    (ht0 : t ≠ []) (ht : ∀ c ∈ t, c ≠ '<') :
    ∀ (pre : List Char), (∀ c ∈ pre, c ≠ '<') → ∀ (post : List Char),
    parseLinks (pre ++ '<' :: 'a' :: ' ' :: 'h' :: 'r' :: 'e' :: 'f' :: '=' :: '"' ::
        (u ++ '"' :: (attrs ++ '>' :: (t ++ '<' :: '/' :: 'a' :: '>' :: post))))
      = pre ++ u ++ ' ' :: '(' :: (t ++ ')' :: parseLinks post) := by
  intro pre
  induction pre with
  | nil =>
    intro _ post
    have hm := tryMatchAnchor_hit u attrs t post hu0 hu ha ht0 ht
    simp only [List.nil_append]
    rw [parseLinks_match _ u t post hm]
  | cons c pre2 ih =>
    intro hpre post
    have hc : c ≠ '<' := hpre c (by simp)
    have ihp := ih (fun x hm => hpre x (by simp [hm])) post
    simp only [List.cons_append]
    rw [parseLinks_nomatch c _ (tryMatchAnchor_head_ne c _ hc)]
    rw [ihp]

theorem strExt (a b : String) (h : a.data = b.data) : a = b :=
  String.ext h

theorem data_parse_html_links (s : String) :
    (parse_html_links s).data = parseLinks s.data := rfl

/-! ## Claim C7 -/

/-- C7 counterexample: anchor markup that is not of the exact shape
(it carries an extra attribute between the closing quote of the URL and the
closing bracket) is nevertheless rewritten by parse_html_links, because the
code pattern accepts any run of non-bracket characters there; the exact-shape
rewriting demanded by the claim leaves the same input untouched. -/
theorem spec_c7_counterexample :
    parse_html_links "<a href=\"https://x.io\" target=\"_blank\">Here</a>"
      = "https://x.io (Here)" ∧
    parse_html_links_exactShape "<a href=\"https://x.io\" target=\"_blank\">Here</a>"
      = "<a href=\"https://x.io\" target=\"_blank\">Here</a>" := by
  exact ⟨by decide, by decide⟩

/-- The relaxed anchor shape the code pattern matches, as the amended claim
words it: the opening a tag in either letter case, at least one whitespace
character, href= in any letter case followed by the double-quoted URL, any
run of characters other than a closing bracket (extra attributes), the
bracket, the TEXT, and the closing a tag in either letter case.  url, txt and
rest name the pieces the rewriting uses. -/
def AnchorShapeAt (cs url txt rest : List Char) : Prop :=
  ∃ (a h r e f a2 : Char) (ws attrs : List Char),
    cs = '<' :: a :: (ws ++ h :: r :: e :: f :: '=' :: '"' ::
      (url ++ '"' :: (attrs ++ '>' :: (txt ++ '<' :: '/' :: a2 :: '>' :: rest)))) ∧
    (a = 'a' ∨ a = 'A') ∧
    ws ≠ [] ∧ (∀ c ∈ ws, isSpaceChar c = true) ∧
    (h = 'h' ∨ h = 'H') ∧ (r = 'r' ∨ r = 'R') ∧
    (e = 'e' ∨ e = 'E') ∧ (f = 'f' ∨ f = 'F') ∧
    url ≠ [] ∧ (∀ c ∈ url, c ≠ '"') ∧
    (∀ c ∈ attrs, c ≠ '>') ∧
    txt ≠ [] ∧ (∀ c ∈ txt, c ≠ '<') ∧
    (a2 = 'a' ∨ a2 = 'A')

theorem eatChar_inv (ch : Char) (cs r : List Char) (h : eatChar ch cs = some r) :
    cs = ch :: r := by
  match cs with
  | [] => simp [eatChar] at h
  | c :: cs2 =>
    simp only [eatChar] at h
    split at h
    · next hc =>
      simp only [Option.some.injEq] at h
      rw [hc, h]
    · exact absurd h (by simp)

theorem eatLitCI_cons_inv (lo up : Char) (ps : List (Char × Char)) (cs r : List Char)
    (h : eatLitCI ((lo, up) :: ps) cs = some r) :
    ∃ c cs2, cs = c :: cs2 ∧ (c = lo ∨ c = up) ∧ eatLitCI ps cs2 = some r := by
  match cs with
  | [] => simp [eatLitCI] at h
  | c :: cs2 =>
    simp only [eatLitCI] at h
    split at h
    · next hc =>
      refine ⟨c, cs2, rfl, ?_, h⟩
      simpa using hc
    · exact absurd h (by simp)

theorem mem_takeWhile_pred (p : Char → Bool) : ∀ (l : List Char) (x : Char),
    x ∈ l.takeWhile p → p x = true := by
  intro l
  induction l with
  | nil => intro x h; simp [List.takeWhile] at h
  | cons a t ih =>
    intro x h
    rw [List.takeWhile_cons] at h
    by_cases hp : p a = true
    · rw [if_pos hp] at h
      rcases List.mem_cons.mp h with h1 | h2
      · rw [h1]; exact hp
      · exact ih x h2
    · rw [if_neg hp] at h
      simp at h

theorem tryMatchAnchor_sound (cs url txt rest : List Char)
    (h : AnchorShapeAt cs url txt rest) :
    tryMatchAnchor cs = some (url, txt, rest) := by
  obtain ⟨a, hch, rch, ech, fch, a2, ws, attrs, hcs, ha, hws0, hwsmem, hh, hr, he, hf,
    hu0, hu, hattrs, ht0, ht, ha2⟩ := h
  subst hcs
  have e2 : eatWhile1 isSpaceChar
      (ws ++ hch :: rch :: ech :: fch :: '=' :: '"' ::
        (url ++ '"' :: (attrs ++ '>' :: (txt ++ '<' :: '/' :: a2 :: '>' :: rest))))
      = some (ws, hch :: rch :: ech :: fch :: '=' :: '"' ::
        (url ++ '"' :: (attrs ++ '>' :: (txt ++ '<' :: '/' :: a2 :: '>' :: rest)))) :=
    eatWhile1_append_cons _ _ _ _
      (by rcases hh with h | h <;> subst h <;> decide) hwsmem hws0
  have e4 : eatWhile1 (fun c => !(c = '"'))
      (url ++ '"' :: (attrs ++ '>' :: (txt ++ '<' :: '/' :: a2 :: '>' :: rest)))
      = some (url, '"' :: (attrs ++ '>' :: (txt ++ '<' :: '/' :: a2 :: '>' :: rest))) :=
    eatWhile1_append_cons _ _ _ _ (by simp) (fun x hm => by simp [hu x hm]) hu0
  have e6 : (attrs ++ '>' :: (txt ++ '<' :: '/' :: a2 :: '>' :: rest)).dropWhile
      (fun c => !(c = '>')) = '>' :: (txt ++ '<' :: '/' :: a2 :: '>' :: rest) :=
    dropWhile_append_cons _ _ _ (by simp) attrs (fun x hm => by simp [hattrs x hm])
  have e8 : eatWhile1 (fun c => !(c = '<')) (txt ++ '<' :: '/' :: a2 :: '>' :: rest)
      = some (txt, '<' :: '/' :: a2 :: '>' :: rest) :=
    eatWhile1_append_cons _ _ _ _ (by simp) (fun x hm => by simp [ht x hm]) ht0
  have s1 : ∀ X : List Char, eatLitCI anchorOpen ('<' :: a :: X) = some X := by
    rcases ha with h | h <;> subst h <;> exact fun X => rfl
  have s3 : ∀ X : List Char,
      eatLitCI anchorHref (hch :: rch :: ech :: fch :: '=' :: '"' :: X) = some X := by
    rcases hh with h | h <;> rcases hr with h2 | h2 <;> rcases he with h3 | h3 <;>
      rcases hf with h4 | h4 <;> subst h <;> subst h2 <;> subst h3 <;> subst h4 <;>
      exact fun X => rfl
  have s5 : ∀ X : List Char, eatChar '"' ('"' :: X) = some X := fun X => rfl
  have s7 : ∀ X : List Char, eatChar '>' ('>' :: X) = some X := fun X => rfl
  have s9 : ∀ X : List Char,
      eatLitCI anchorClose ('<' :: '/' :: a2 :: '>' :: X) = some X := by
    rcases ha2 with h | h <;> subst h <;> exact fun X => rfl
  unfold tryMatchAnchor
  simp only [s1, e2, s3, e4, s5, e6, s7, e8, s9]

theorem tryMatchAnchor_complete (cs url txt rest : List Char)
    (h : tryMatchAnchor cs = some (url, txt, rest)) :
    AnchorShapeAt cs url txt rest := by
  unfold tryMatchAnchor at h
  cases h1 : eatLitCI anchorOpen cs with
  | none => simp [h1] at h
  | some r1 =>
  simp only [h1] at h
  cases h2 : eatWhile1 isSpaceChar r1 with
  | none => simp [h2] at h
  | some pr2 =>
  obtain ⟨ws, r2⟩ := pr2
  simp only [h2] at h
  cases h3 : eatLitCI anchorHref r2 with
  | none => simp [h3] at h
  | some r3 =>
  simp only [h3] at h
  cases h4 : eatWhile1 (fun c => !(c = '"')) r3 with
  | none => simp [h4] at h
  | some pr4 =>
  obtain ⟨url2, r4⟩ := pr4
  simp only [h4] at h
  cases h5 : eatChar '"' r4 with
  | none => simp [h5] at h
  | some r5 =>
  simp only [h5] at h
  cases h7 : eatChar '>' (r5.dropWhile (fun c => !(c = '>'))) with
  | none => simp [h7] at h
  | some r7 =>
  simp only [h7] at h
  cases h8 : eatWhile1 (fun c => !(c = '<')) r7 with
  | none => simp [h8] at h
  | some pr8 =>
  obtain ⟨txt2, r8⟩ := pr8
  simp only [h8] at h
  cases h9 : eatLitCI anchorClose r8 with
  | none => simp [h9] at h
  | some r9 =>
  simp only [h9, Option.some.injEq, Prod.mk.injEq] at h
  obtain ⟨hu, ht, hr⟩ := h
  subst url2
  subst txt2
  subst r9
  simp only [anchorOpen] at h1
  obtain ⟨c1, cs1, hcs1, hc1, h1b⟩ := eatLitCI_cons_inv '<' '<' _ cs r1 h1
  obtain ⟨ca, cs2, hcs2, hca, h1c⟩ := eatLitCI_cons_inv 'a' 'A' _ cs1 r1 h1b
  have hcs2r : cs2 = r1 := by simpa [eatLitCI] using h1c
  have hc1e : c1 = '<' := by rcases hc1 with h | h <;> exact h
  obtain ⟨hwseq, hr2eq, hws0, hwsapp⟩ := eatWhile1_parts isSpaceChar r1 ws r2 h2
  have hwsmem : ∀ c ∈ ws, isSpaceChar c = true := by
    intro c hm
    rw [hwseq] at hm
    exact mem_takeWhile_pred isSpaceChar r1 c hm
  simp only [anchorHref] at h3
  obtain ⟨d1, t1, he1, hd1, h3b⟩ := eatLitCI_cons_inv 'h' 'H' _ r2 r3 h3
  obtain ⟨d2, t2, he2, hd2, h3c⟩ := eatLitCI_cons_inv 'r' 'R' _ t1 r3 h3b
  obtain ⟨d3, t3, he3, hd3, h3d⟩ := eatLitCI_cons_inv 'e' 'E' _ t2 r3 h3c
  obtain ⟨d4, t4, he4, hd4, h3e⟩ := eatLitCI_cons_inv 'f' 'F' _ t3 r3 h3d
  obtain ⟨d5, t5, he5, hd5, h3f⟩ := eatLitCI_cons_inv '=' '=' _ t4 r3 h3e
  obtain ⟨d6, t6, he6, hd6, h3g⟩ := eatLitCI_cons_inv '"' '"' _ t5 r3 h3f
  have ht6 : t6 = r3 := by simpa [eatLitCI] using h3g
  have hd5e : d5 = '=' := by rcases hd5 with h | h <;> exact h
  have hd6e : d6 = '"' := by rcases hd6 with h | h <;> exact h
  obtain ⟨hueq, hr4eq, hu0, huapp⟩ := eatWhile1_parts _ r3 url r4 h4
  have humem : ∀ c ∈ url, c ≠ '"' := by
    intro c hm
    rw [hueq] at hm
    have := mem_takeWhile_pred _ r3 c hm
    simpa using this
  have hr4 : r4 = '"' :: r5 := eatChar_inv '"' r4 r5 h5
  have hr5split : r5.takeWhile (fun c => !(c = '>')) ++ r5.dropWhile (fun c => !(c = '>'))
      = r5 := List.takeWhile_append_dropWhile _ r5
  have hdrop : r5.dropWhile (fun c => !(c = '>')) = '>' :: r7 := eatChar_inv '>' _ r7 h7
  obtain ⟨attrs, hattrs_def⟩ : ∃ A, r5.takeWhile (fun c => !(c = '>')) = A := ⟨_, rfl⟩
  have hamem : ∀ c ∈ attrs, c ≠ '>' := by
    intro c hm
    rw [← hattrs_def] at hm
    have := mem_takeWhile_pred _ r5 c hm
    simpa using this
  have hr5eq : r5 = attrs ++ '>' :: r7 := by
    conv_lhs => rw [← hr5split]
    rw [hattrs_def, hdrop]
  obtain ⟨hteq, hr8eq, ht0, htapp⟩ := eatWhile1_parts _ r7 txt r8 h8
  have htmem : ∀ c ∈ txt, c ≠ '<' := by
    intro c hm
    rw [hteq] at hm
    have := mem_takeWhile_pred _ r7 c hm
    simpa using this
  simp only [anchorClose] at h9
  obtain ⟨g1, u1, hg1e, hg1, h9b⟩ := eatLitCI_cons_inv '<' '<' _ r8 rest h9
  obtain ⟨g2, u2, hg2e, hg2, h9c⟩ := eatLitCI_cons_inv '/' '/' _ u1 rest h9b
  obtain ⟨g3, u3, hg3e, hg3, h9d⟩ := eatLitCI_cons_inv 'a' 'A' _ u2 rest h9c
  obtain ⟨g4, u4, hg4e, hg4, h9e⟩ := eatLitCI_cons_inv '>' '>' _ u3 rest h9d
  have hu4 : u4 = rest := by simpa [eatLitCI] using h9e
  have hg1e2 : g1 = '<' := by rcases hg1 with h | h <;> exact h
  have hg2e2 : g2 = '/' := by rcases hg2 with h | h <;> exact h
  have hg4e2 : g4 = '>' := by rcases hg4 with h | h <;> exact h
  refine ⟨ca, d1, d2, d3, d4, g3, ws, attrs, ?_, hca, hws0, hwsmem,
    hd1, hd2, hd3, hd4, hu0, humem, hamem, ht0, htmem, hg3⟩
  rw [hcs1, hc1e, hcs2, hcs2r, ← hwsapp, he1, he2, he3, he4, he5, he6, hd5e, hd6e, ht6,
    ← huapp, hr4, hr5eq, ← htapp, hg1e, hg2e, hg3e, hg4e, hu4, hg1e2, hg2e2, hg4e2]

theorem parseLinks_scan : ∀ (pre tailCs url txt post : List Char),
    tryMatchAnchor tailCs = some (url, txt, post) →
    (∀ p q, pre ++ tailCs = p ++ q → p.length < pre.length → tryMatchAnchor q = none) →
    parseLinks (pre ++ tailCs)
      = pre ++ url ++ ' ' :: '(' :: (txt ++ ')' :: parseLinks post) := by
  intro pre
  induction pre with
  | nil =>
    intro tailCs url txt post hm _
    simp only [List.nil_append]
    exact parseLinks_match tailCs url txt post hm
  | cons c pre2 ih =>
    intro tailCs url txt post hm hfree
    have h0 : tryMatchAnchor (c :: (pre2 ++ tailCs)) = none :=
      hfree [] (c :: (pre2 ++ tailCs)) (by simp) (by simp)
    simp only [List.cons_append]
    rw [parseLinks_nomatch _ _ h0]
    rw [ih tailCs url txt post hm
      (fun p q hq hlt => hfree (c :: p) q (by simp only [List.cons_append]; rw [hq])
        (by simpa using hlt))]

theorem parseLinks_no_match_anywhere : ∀ (cs : List Char),
    (∀ p q, cs = p ++ q → tryMatchAnchor q = none) → parseLinks cs = cs := by
  intro cs
  induction cs with
  | nil => intro _; rfl
  | cons c rest ih =>
    intro h
    rw [parseLinks_nomatch c rest (h [] (c :: rest) rfl)]
    rw [ih (fun p q hq => h (c :: p) q (by rw [List.cons_append, hq]))]

theorem mem_of_split_lt {α : Type} : ∀ (p pre tailCs q : List α) (c : α),
    pre ++ tailCs = p ++ c :: q → p.length < pre.length → c ∈ pre := by
  intro p
  induction p with
  | nil =>
    intro pre tailCs q c hq hlt
    cases pre with
    | nil => simp at hlt
    | cons x pre2 =>
      simp only [List.nil_append, List.cons_append] at hq
      injection hq with h1 _
      rw [← h1]
      exact List.mem_cons_self x pre2
  | cons d p2 ih =>
    intro pre tailCs q c hq hlt
    cases pre with
    | nil => simp at hlt
    | cons x pre2 =>
      simp only [List.cons_append] at hq
      injection hq with _ h2
      simp only [List.length_cons] at hlt
      exact List.mem_cons_of_mem x (ih pre2 tailCs q c h2 (by omega))

theorem noAnchorIn_bracketFree (pre tailCs : List Char)
    (hpre : ∀ c ∈ pre, c ≠ '<') :
    ∀ p q, pre ++ tailCs = p ++ q → p.length < pre.length →
      ∀ u t r, ¬ AnchorShapeAt q u t r := by
  intro p q hq hlt u t r hsh
  obtain ⟨a, hch, rch, ech, fch, a2, ws, attrs, hcs, _⟩ := hsh
  rw [hcs] at hq
  exact hpre '<' (mem_of_split_lt p pre tailCs _ '<' hq hlt) rfl

theorem drop_len_append (a b : List Char) : (a ++ b).drop a.length = b := by
  induction a with
  | nil => simp
  | cons x t ih => simp [ih]

theorem noShape_of_scan (cs : List Char)
    (h : ∀ n, tryMatchAnchor (cs.drop n) = none) :
    ∀ p q, cs = p ++ q → ∀ u t r, ¬ AnchorShapeAt q u t r := by
  intro p q hq u t r hsh
  have hm := tryMatchAnchor_sound q u t r hsh
  have hd : cs.drop p.length = q := by
    rw [hq]
    exact drop_len_append p q
  have h3 := h p.length
  rw [hd, hm] at h3
  exact absurd h3 (by simp)

theorem scan_none_of_all_lt (cs : List Char)
    (h : ∀ n, n < cs.length → tryMatchAnchor (cs.drop n) = none) :
    ∀ n, tryMatchAnchor (cs.drop n) = none := by
  intro n
  by_cases hn : n < cs.length
  · exact h n hn
  · rw [List.drop_eq_nil_of_le (by omega)]
    rfl

/-- C7 (amended): hyperlink normalization processes the description left to
right rewriting the anchor occurrences of the relaxed shape the code pattern
actually matches — AnchorShapeAt: the a tag in either letter case, at least
one whitespace character, href= in any letter case with the double-quoted
URL, any run of non-bracket characters (extra attributes are accepted), the
bracket, TEXT, and the closing a tag in either letter case.  First conjunct:
the leftmost occurrence (no occurrence starts before it) becomes URL (TEXT)
and scanning continues on the remainder, so applying it repeatedly covers
every occurrence.  Second conjunct: any input with no occurrence of the
relaxed shape at any position — whether it contains other markup or no
markup at all — is returned verbatim. -/
theorem spec_c7 :
    (∀ (s : String) (pre mid url txt post : List Char),
      s.data = pre ++ mid →
      AnchorShapeAt mid url txt post →
      (∀ p q, s.data = p ++ q → p.length < pre.length →
        ∀ u2 t2 r2, ¬ AnchorShapeAt q u2 t2 r2) →
      (parse_html_links s).data
        = pre ++ url ++ ' ' :: '(' :: (txt ++ ')' ::
            (parse_html_links (String.mk post)).data)) ∧
    (∀ s : String, (∀ p q, s.data = p ++ q → ∀ u t r, ¬ AnchorShapeAt q u t r) →
      parse_html_links s = s) := by
  constructor
  · intro s pre mid url txt post hsplit hshape hfree
    have hm := tryMatchAnchor_sound mid url txt post hshape
    have hfree2 : ∀ p q, pre ++ mid = p ++ q → p.length < pre.length →
        tryMatchAnchor q = none := by
      intro p q hq hlt
      cases hmm : tryMatchAnchor q with
      | none => rfl
      | some trip =>
        obtain ⟨u2, t2, r2⟩ := trip
        exact absurd (tryMatchAnchor_complete q u2 t2 r2 hmm)
          (hfree p q (by rw [hsplit, hq]) hlt u2 t2 r2)
    have hscan := parseLinks_scan pre mid url txt post hm hfree2
    rw [data_parse_html_links, hsplit, hscan]
    rfl
  · intro s hfree
    apply strExt
    rw [data_parse_html_links]
    apply parseLinks_no_match_anywhere
    intro p q hq
    cases hmm : tryMatchAnchor q with
    | none => rfl
    | some trip =>
      obtain ⟨u, t, r⟩ := trip
      exact absurd (tryMatchAnchor_complete q u t r hmm) (hfree p q hq u t r)

/-- C7 witness: the amended theorem applied at a concrete description whose
anchor has an uppercase tag, a three-character whitespace run with a tab,
mixed-case href and an extra attribute, and at a concrete description
containing other markup and a quote-less anchor, none of which matches the
relaxed shape. -/
theorem spec_c7_witness :
    parse_html_links "see <A \t hReF=\"https://x.io\" target=x>link</a>!"
      = "see https://x.io (link)!" ∧
    parse_html_links "<b>plain</b> text <a href=x>no</a>"
      = "<b>plain</b> text <a href=x>no</a>" := by
  constructor
  · apply strExt
    have hsplit : ("see <A \t hReF=\"https://x.io\" target=x>link</a>!" : String).data
        = "see ".data ++ ('<' :: 'A' ::
            ([' ', '\t', ' '] ++ 'h' :: 'R' :: 'e' :: 'F' :: '=' :: '"' ::
              ("https://x.io".data ++ '"' :: (" target=x".data ++ '>' ::
                ("link".data ++ '<' :: '/' :: 'a' :: '>' :: "!".data))))) := by decide
    have h := spec_c7.1 "see <A \t hReF=\"https://x.io\" target=x>link</a>!"
      "see ".data
      ('<' :: 'A' :: ([' ', '\t', ' '] ++ 'h' :: 'R' :: 'e' :: 'F' :: '=' :: '"' ::
        ("https://x.io".data ++ '"' :: (" target=x".data ++ '>' ::
          ("link".data ++ '<' :: '/' :: 'a' :: '>' :: "!".data)))))
      "https://x.io".data "link".data "!".data
      hsplit
      ⟨'A', 'h', 'R', 'e', 'F', 'a', [' ', '\t', ' '], " target=x".data, rfl,
        by decide, by decide, by decide, by decide, by decide, by decide, by decide,
        by decide, by decide, by decide, by decide, by decide, by decide⟩
      (fun p q hpq hlt => noAnchorIn_bracketFree "see ".data
        ('<' :: 'A' :: ([' ', '\t', ' '] ++ 'h' :: 'R' :: 'e' :: 'F' :: '=' :: '"' ::
          ("https://x.io".data ++ '"' :: (" target=x".data ++ '>' ::
            ("link".data ++ '<' :: '/' :: 'a' :: '>' :: "!".data)))))
        (by decide) p q (hsplit.symm.trans hpq) hlt)
    rw [h]
    decide
  · exact spec_c7.2 "<b>plain</b> text <a href=x>no</a>"
      (noShape_of_scan _ (scan_none_of_all_lt _ (by decide)))

/-! ## Date-time model (convert_utc_to_timezone, src/main.py lines 156-224)

datetime.datetime values are modelled as civil fields plus an optional UTC
offset in minutes (tzinfo-aware values carry some offset, naive values none).
datetime.fromisoformat (the pre-3.11 grammar used by the code: a ten
character date, any single separator character, HH:MM or HH:MM:SS, and an
optional signed HH:MM offset; fractional seconds are not produced by any call
site of this program and are not modelled) becomes parseIso; failure of the
parse corresponds to the ValueError that the surrounding except-handler of
convert_utc_to_timezone turns into returning the input unchanged. -/

structure PlainDateTime where
  year : Nat
  month : Nat
  day : Nat
  hour : Nat
  minute : Nat
  second : Nat
deriving DecidableEq, Repr

structure DateTime where
  dt : PlainDateTime
  offset : Option Int
deriving DecidableEq, Repr

/-- Numeric value of a decimal digit character. -/
def digitVal (c : Char) : Option Nat :=
  if '0' ≤ c ∧ c ≤ '9' then some (c.toNat - '0'.toNat) else none

/-- Gregorian leap-year rule. -/
def isLeapYear (y : Nat) : Bool :=
  (y % 4 = 0 && y % 100 ≠ 0) || y % 400 = 0

/-- Number of days of month m in year y. -/
def daysInMonth (y m : Nat) : Nat :=
  if m = 2 then (if isLeapYear y then 29 else 28)
  else if m = 4 || m = 6 || m = 9 || m = 11 then 30 else 31

/-- Parse and validate YYYY-MM-DD exactly, as datetime.date.fromisoformat. -/
def parseDate (cs : List Char) : Option (Nat × Nat × Nat) :=
  match cs with
  | [y1, y2, y3, y4, s1, m1, m2, s2, d1, d2] =>
    if s1 = '-' ∧ s2 = '-' then
      match digitVal y1, digitVal y2, digitVal y3, digitVal y4,
            digitVal m1, digitVal m2, digitVal d1, digitVal d2 with
      | some a, some b, some c, some d, some e, some f, some g, some h =>
        let y := a * 1000 + b * 100 + c * 10 + d
        let mo := e * 10 + f
        let dd := g * 10 + h
        if 1 ≤ y ∧ 1 ≤ mo ∧ mo ≤ 12 ∧ 1 ≤ dd ∧ dd ≤ daysInMonth y mo then
          some (y, mo, dd)
        else none
      | _, _, _, _, _, _, _, _ => none
    else none
  | _ => none

/-- Parse and validate HH:MM or HH:MM:SS. -/
def parseTimeCore (cs : List Char) : Option (Nat × Nat × Nat) :=
  match cs with
  | [h1, h2, c1, m1, m2] =>
    if c1 = ':' then
      match digitVal h1, digitVal h2, digitVal m1, digitVal m2 with
      | some a, some b, some c, some d =>
        let hh := a * 10 + b
        let mm := c * 10 + d
        if hh ≤ 23 ∧ mm ≤ 59 then some (hh, mm, 0) else none
      | _, _, _, _ => none
    else none
  | [h1, h2, c1, m1, m2, c2, s1, s2] =>
    if c1 = ':' ∧ c2 = ':' then
      match digitVal h1, digitVal h2, digitVal m1, digitVal m2,
            digitVal s1, digitVal s2 with
      | some a, some b, some c, some d, some e, some f =>
        let hh := a * 10 + b
        let mm := c * 10 + d
        let ss := e * 10 + f
        if hh ≤ 23 ∧ mm ≤ 59 ∧ ss ≤ 59 then some (hh, mm, ss) else none
      | _, _, _, _, _, _ => none
    else none
  | _ => none

/-- Parse HH:MM of an offset tail (hour bound as in datetime.time). -/
def parseTzTail (cs : List Char) : Option Nat :=
  match cs with
  | [h1, h2, c1, m1, m2] =>
    if c1 = ':' then
      match digitVal h1, digitVal h2, digitVal m1, digitVal m2 with
      | some a, some b, some c, some d =>
        let hh := a * 10 + b
        let mm := c * 10 + d
        if hh ≤ 23 ∧ mm ≤ 59 then some (hh * 60 + mm) else none
      | _, _, _, _ => none
    else none
  | _ => none

/-- Split a character list at the first occurrence of ch. -/
def splitAtChar (ch : Char) : List Char → Option (List Char × List Char)
  | [] => none
  | c :: cs =>
    if c = ch then some ([], cs)
    else
      match splitAtChar ch cs with
      | some (a, b) => some (c :: a, b)
      | none => none

/-- Parse the time-of-day part, with the offset split at the first sign
character, preferring a minus sign, as _parse_isoformat_time does. -/
def parseIsoTimePart (tpart : List Char) : Option (Nat × Nat × Nat × Option Int) :=
  match splitAtChar '-' tpart with
  | some (timestr, tzstr) =>
    match parseTimeCore timestr, parseTzTail tzstr with
    | some (hh, mm, ss), some w => some (hh, mm, ss, some (-(w : Int)))
    | _, _ => none
  | none =>
    match splitAtChar '+' tpart with
    | some (timestr, tzstr) =>
      match parseTimeCore timestr, parseTzTail tzstr with
      | some (hh, mm, ss), some w => some (hh, mm, ss, some ((w : Int)))
      | _, _ => none
    | none =>
      match parseTimeCore tpart with
      | some (hh, mm, ss) => some (hh, mm, ss, none)
      | none => none

/-- datetime.fromisoformat (pre-3.11 grammar, see the section comment). -/
def parseIso (cs : List Char) : Option DateTime :=
  if cs.length = 10 then
    match parseDate cs with
    | some ymd => some ⟨⟨ymd.1, ymd.2.1, ymd.2.2, 0, 0, 0⟩, none⟩
    | none => none
  else
    match parseDate (cs.take 10) with
    | none => none
    | some ymd =>
      if 12 ≤ cs.length then
        match parseIsoTimePart (cs.drop 11) with
        | some (hh, mm, ss, off) => some ⟨⟨ymd.1, ymd.2.1, ymd.2.2, hh, mm, ss⟩, off⟩
        | none => none
      else none

/-- Day count of a civil date from 1970-01-01 (Hinnant days_from_civil; all
divisions occur on nonnegative operands, so truncating division is exact). -/
def daysFromCivil (y m d : Nat) : Int :=
  let yi : Int := (y : Int) - (if m ≤ 2 then 1 else 0)
  let era : Int := (if 0 ≤ yi then yi else yi - 399) / 400
  let yoe : Int := yi - era * 400
  let mi : Int := (m : Int)
  let doy : Int := (153 * (mi + (if 2 < mi then -3 else 9)) + 2) / 5 + (d : Int) - 1
  let doe : Int := yoe * 365 + yoe / 4 - yoe / 100 + doy
  era * 146097 + doe - 719468

/-- Civil date of a day count (Hinnant civil_from_days). -/
def civilFromDays (z0 : Int) : Nat × Nat × Nat :=
  let z := z0 + 719468
  let era : Int := (if 0 ≤ z then z else z - 146096) / 146097
  let doe : Int := z - era * 146097
  let yoe : Int := (doe - doe / 1460 + doe / 36524 - doe / 146096) / 365
  let yi : Int := yoe + era * 400
  let doy : Int := doe - (365 * yoe + yoe / 4 - yoe / 100)
  let mp : Int := (5 * doy + 2) / 153
  let d : Int := doy - (153 * mp + 2) / 5 + 1
  let m : Int := mp + (if mp < 10 then 3 else -9)
  let y : Int := yi + (if m ≤ 2 then 1 else 0)
  (y.toNat, m.toNat, d.toNat)

/-- Add a whole number of minutes to a civil date-time (seconds unchanged;
offsets are whole minutes in every zone this program can meet). -/
def addMinutes (p : PlainDateTime) (delta : Int) : PlainDateTime :=
  let total : Int :=
    daysFromCivil p.year p.month p.day * 1440 + ((p.hour * 60 + p.minute : Nat) : Int) + delta
  let day : Int := Int.ediv total 1440
  let rem : Int := Int.emod total 1440
  let ymd := civilFromDays day
  ⟨ymd.1, ymd.2.1, ymd.2.2, (Int.ediv rem 60).toNat, (Int.emod rem 60).toNat, p.second⟩

/-- A tzinfo object as this program uses it: the UTC offset (minutes) it
reports for a naive local date-time (datetime.replace followed by isoformat,
fold 0), and the offset it applies to a UTC instant (astimezone). -/
structure Timezone where
  offsetOfLocal : PlainDateTime → Int
  offsetOfUtc : PlainDateTime → Int

/-- The UTC timezone. -/
def utcTimezone : Timezone := ⟨fun _ => 0, fun _ => 0⟩

/-- Day of week by Sakamoto's method, 0 = Sunday (valid for y ≥ 1). -/
def dayOfWeek (y m d : Nat) : Nat :=
  let t := [0, 3, 2, 5, 0, 3, 5, 1, 4, 6, 2, 4]
  let y2 := if m < 3 then y - 1 else y
  (y2 + y2 / 4 - y2 / 100 + y2 / 400 + t.getD (m - 1) 0 + d) % 7

/-- Day of month of the second Sunday of March. -/
def secondSundayOfMarch (y : Nat) : Nat :=
  1 + (7 - dayOfWeek y 3 1) % 7 + 7

/-- Day of month of the first Sunday of November. -/
def firstSundayOfNovember (y : Nat) : Nat :=
  1 + (7 - dayOfWeek y 11 1) % 7

/-- Whether a local wall-clock instant falls in US Eastern daylight time
(fold 0 for the ambiguous hour). -/
def inEasternDst (p : PlainDateTime) : Bool :=
  let mss := secondSundayOfMarch p.year
  let fsn := firstSundayOfNovember p.year
  (3 < p.month && p.month < 11) ||
  (p.month = 3 && (mss < p.day || (p.day = mss && 2 ≤ p.hour))) ||
  (p.month = 11 && (p.day < fsn || (p.day = fsn && p.hour < 2)))

/-- Whether a UTC instant falls in US Eastern daylight time (transitions at
07:00 and 06:00 UTC). -/
def inEasternDstUtc (p : PlainDateTime) : Bool :=
  let mss := secondSundayOfMarch p.year
  let fsn := firstSundayOfNovember p.year
  (3 < p.month && p.month < 11) ||
  (p.month = 3 && (mss < p.day || (p.day = mss && 7 ≤ p.hour))) ||
  (p.month = 11 && (p.day < fsn || (p.day = fsn && p.hour < 6)))

/-- Modelled from the IANA timezone database (external to this repository,
reached through zoneinfo.ZoneInfo): America/New_York under the post-2007
United States rule — UTC-4 from the second Sunday of March at 02:00 local
until the first Sunday of November at 02:00 local, UTC-5 otherwise. -/
def americaNewYork : Timezone :=
  ⟨fun p => if inEasternDst p then -240 else -300,
   fun p => if inEasternDstUtc p then -240 else -300⟩

/-- Modelled from the IANA timezone database (external to this repository):
the ZoneInfo constructor of main.py line 180, restricted to the zone names
this verification exercises; any other name raises and the code falls back to
UTC. -/
def findZone : String → Option Timezone
  | "America/New_York" => some americaNewYork
  | "UTC" => some utcTimezone
  | _ => none

/-- Two-digit zero padding. -/
def pad2 (n : Nat) : String := if n < 10 then "0" ++ toString n else toString n

/-- Four-digit zero padding. -/
def pad4 (n : Nat) : String :=
  if n < 10 then "000" ++ toString n
  else if n < 100 then "00" ++ toString n
  else if n < 1000 then "0" ++ toString n
  else toString n

/-- Signed HH:MM rendering of an offset in minutes. -/
def renderOffset (off : Int) : String :=
  let a := off.natAbs
  (if off < 0 then "-" else "+") ++ pad2 (a / 60) ++ ":" ++ pad2 (a % 60)

/-- datetime.isoformat for second-resolution values. -/
def renderIso (d : DateTime) : String :=
  pad4 d.dt.year ++ "-" ++ pad2 d.dt.month ++ "-" ++ pad2 d.dt.day ++ "T"
    ++ pad2 d.dt.hour ++ ":" ++ pad2 d.dt.minute ++ ":" ++ pad2 d.dt.second
    ++ (match d.offset with
        | none => ""
        | some off => renderOffset off)

/-- convert_utc_to_timezone (main.py 156-224).  The has_timezone_info test,
the strip of a trailing Z, the normalization of aware values to UTC followed
by astimezone, the replace-with-target-offset path for naive values, and the
return of the input string when parsing raises, all as in the source. -/
def convert_utc_to_timezone (utc_iso_string : String) (target_timezone_str : String) : String :=
  let target_tz := (findZone target_timezone_str).getD utcTimezone
  let cs := utc_iso_string.data
  let has_timezone_info :=
    listEnds cs ['Z'] || listEnds cs ['+', '0', '0', ':', '0', '0'] ||
    (lastN 6 cs).contains '+' || (lastN 6 cs).contains '-'
  if has_timezone_info then
    let cs2 := if listEnds cs ['Z'] then cs.dropLast ++ ['+', '0', '0', ':', '0', '0'] else cs
    match parseIso cs2 with
    | none => utc_iso_string
    | some parsed =>
      let utcPlain :=
        match parsed.offset with
        | none => parsed.dt
        | some off => if off = 0 then parsed.dt else addMinutes parsed.dt (-off)
      let offTarget := target_tz.offsetOfUtc utcPlain
      renderIso ⟨addMinutes utcPlain offTarget, some offTarget⟩
  else
    match parseIso cs with
    | none => utc_iso_string
    | some parsed =>
      renderIso ⟨parsed.dt, some (target_tz.offsetOfLocal parsed.dt)⟩

/-! ## Fingerprint builder (get_event_signature, src/main.py lines 228-255)

Python exceptions are modelled as Except results: a raising access of a
missing dict key is PyErr.keyError, adding a string to None is
PyErr.typeError. -/

inductive PyErr
  | keyError
  | typeError
deriving DecidableEq, Repr

/-- Raising dict access event[key] for a key modelled as an Option field. -/
def keyed {α : Type} (o : Option α) : Except PyErr α :=
  match o with
  | some v => Except.ok v
  | none => Except.error PyErr.keyError

theorem okBind {α β : Type} (a : α) (f : α → Except PyErr β) :
    (Except.ok a : Except PyErr α) >>= f = f a := rfl

theorem errorBind {α β : Type} (e : PyErr) (f : α → Except PyErr β) :
    (Except.error e : Except PyErr α) >>= f = Except.error e := rfl

theorem pureEqOk {α : Type} (a : α) : (pure a : Except PyErr α) = Except.ok a := rfl

theorem mapOk {α β : Type} (a : α) (f : α → β) :
    (Except.ok a : Except PyErr α).map f = Except.ok (f a) := rfl

theorem mapError {α β : Type} (e : PyErr) (f : α → β) :
    (Except.error e : Except PyErr α).map f = Except.error e := rfl

instance {ε α : Type} [DecidableEq ε] [DecidableEq α] : DecidableEq (Except ε α) :=
  fun a b =>
    match a, b with
    | Except.ok x, Except.ok y =>
      if h : x = y then isTrue (by rw [h]) else isFalse (by simp [h])
    | Except.error x, Except.error y =>
      if h : x = y then isTrue (by rw [h]) else isFalse (by simp [h])
    | Except.ok _, Except.error _ => isFalse (by simp)
    | Except.error _, Except.ok _ => isFalse (by simp)

/-- The signature dictionary built by get_event_signature.  start_time and
end_time are Option String because start.get(dateTime, start.get(date))
yields None when neither key is present. -/
structure Signature where
  title : String
  description : String
  start_time : Option String
  end_time : Option String
  location : String
  is_discord_event : Bool
deriving DecidableEq, Repr

/-- get_event_signature (main.py 228-255).  timezone is var.TIMEZONE.
event[start] and event[end] are raising accesses; summary, description and
location default to the empty string; a whole-day event (a date key in the
start dict) has both instants rebuilt from the start date at 00:00:00 and
23:59:59 through convert_utc_to_timezone. -/
def get_event_signature (timezone : String) (event : Event) : Except PyErr Signature :=
  match event.start, event.end_ with
  | none, _ => Except.error PyErr.keyError
  | some _, none => Except.error PyErr.keyError
  | some st, some en =>
    let start_time0 : Option String :=
      match st.dateTime with
      | some v => some v
      | none => st.date
    let end_time0 : Option String :=
      match en.dateTime with
      | some v => some v
      | none => en.date
    let timesE : Except PyErr (Option String × Option String) :=
      if st.date.isSome then
        match start_time0 with
        | some s =>
          Except.ok (some (convert_utc_to_timezone (s ++ "T00:00:00") timezone),
                     some (convert_utc_to_timezone (s ++ "T23:59:59") timezone))
        | none => Except.error PyErr.typeError
      else Except.ok (start_time0, end_time0)
    match timesE with
    | Except.error e => Except.error e
    | Except.ok times =>
      Except.ok {
        title := event.summary.getD ""
        description := parse_html_links (event.description.getD "")
        start_time := times.1
        end_time := times.2
        location := event.location.getD ""
        is_discord_event := strIncludes (toLowerStr (event.location.getD "")) "discord" }

/-- events_are_different (main.py 257-272).  A missing or empty stored
signature counts as different before the current signature is even computed;
otherwise the current signature is rebuilt and all six keys are compared. -/
def events_are_different (timezone : String) (current_event : Event)
    (stored_signature : Option Signature) : Except PyErr Bool :=
  match stored_signature with
  | none => Except.ok true
  | some stored =>
    (get_event_signature timezone current_event).map (fun cur => decide (¬ (cur = stored)))

/-! ### List-splitting facts used by the all-day conversion path -/

theorem take_append_len (a b : List Char) : (a ++ b).take a.length = a := by
  induction a with
  | nil => simp
  | cons hd tl ih => simp [ih]

theorem drop_append_len (a b : List Char) (k : Nat) :
    (a ++ b).drop (a.length + k) = b.drop k := by
  induction a with
  | nil => simp
  | cons hd tl ih =>
    simp only [List.cons_append, List.length_cons]
    have h : tl.length + 1 + k = (tl.length + k) + 1 := by omega
    rw [h]
    simp only [List.drop_succ_cons]
    exact ih

theorem lastN_append (a b : List Char) (n : Nat) (h : n ≤ b.length) :
    lastN n (a ++ b) = lastN n b := by
  unfold lastN
  simp only [List.length_append]
  have h2 : a.length + b.length - n = a.length + (b.length - n) := by omega
  rw [h2, drop_append_len]

theorem listEnds_append (a b p : List Char) (h : p.length ≤ b.length) :
    listEnds (a ++ b) p = listEnds b p := by
  unfold listEnds
  rw [lastN_append a b p.length h]

theorem parseDate_length (cs : List Char) (ymd : Nat × Nat × Nat)
    (h : parseDate cs = some ymd) : cs.length = 10 := by
  unfold parseDate at h
  split at h
  · simp
  · exact absurd h (by simp)

/-- The naive branch of convert_utc_to_timezone: a valid date followed by a
nine-character time suffix free of sign characters parses, routes past the
has_timezone_info test, and is rendered with the target offset resolved at
the parsed local wall time. -/
theorem convert_utc_naive (ds : String) (y m d : Nat) (tzName : String) (tz : Timezone)
    (suf : List Char) (hh mi ss : Nat)
    (hz : findZone tzName = some tz)
    (hds : parseDate ds.data = some (y, m, d))
    (hlen : suf.length = 9)
    (h1 : listEnds suf ['Z'] = false)
    (h2 : listEnds suf ['+', '0', '0', ':', '0', '0'] = false)
    (h3 : (lastN 6 suf).contains '+' = false)
    (h4 : (lastN 6 suf).contains '-' = false)
    (h5 : parseIsoTimePart (suf.drop 1) = some (hh, mi, ss, none)) :
    convert_utc_to_timezone (ds ++ String.mk suf) tzName
      = renderIso ⟨⟨y, m, d, hh, mi, ss⟩,
          some (tz.offsetOfLocal ⟨y, m, d, hh, mi, ss⟩)⟩ := by
  have hdl : ds.data.length = 10 := parseDate_length ds.data (y, m, d) hds
  have hdata : (ds ++ String.mk suf).data = ds.data ++ suf := rfl
  have hpi : parseIso (ds.data ++ suf) = some ⟨⟨y, m, d, hh, mi, ss⟩, none⟩ := by
    have htake : (ds.data ++ suf).take 10 = ds.data := by
      rw [← hdl]
      exact take_append_len ds.data suf
    have hdrop : (ds.data ++ suf).drop 11 = suf.drop 1 := by
      have h11 : 11 = ds.data.length + 1 := by omega
      rw [h11, drop_append_len]
    have hlentot : (ds.data ++ suf).length = 19 := by
      simp [hdl, hlen]
    have h5t : parseIsoTimePart suf.tail = some (hh, mi, ss, none) := by
      rw [← List.drop_one]
      exact h5
    unfold parseIso
    rw [hlentot, htake, hdrop]
    simp [hds, h5, h5t]
  simp only [convert_utc_to_timezone, hdata]
  rw [listEnds_append ds.data suf ['Z'] (by simp [hlen]),
      listEnds_append ds.data suf ['+', '0', '0', ':', '0', '0'] (by simp [hlen]),
      lastN_append ds.data suf 6 (by omega)]
  rw [h1, h2, h3, h4]
  simp [hpi, hz]

/-! ## Claim C4 -/

/-- A whole-day source event on 2026-07-15. -/
def c4Event : Event :=
  { id := "g4", summary := some "All day", description := none, location := none,
    start := some ⟨none, some "2026-07-15"⟩, end_ := some ⟨none, some "2026-07-15"⟩,
    creator := none, attendees := none }

/-- The fingerprint of c4Event under America/New_York. -/
def c4Sig : Signature :=
  { title := "All day", description := "",
    start_time := some "2026-07-15T00:00:00-04:00",
    end_time := some "2026-07-15T23:59:59-04:00",
    location := "", is_discord_event := false }

/-- C4 (confirmed): for every whole-day source event whose start date is a
valid calendar date and every resolvable configured timezone, the fingerprint
carries start_time at 00:00:00 and end_time at 23:59:59 of that same date,
both rendered with the target timezone offset resolved at that wall time (so
the daylight-saving rule applies at that date); concretely, an all-day event
on 2026-07-15 with timezone America/New_York yields
2026-07-15T00:00:00-04:00 and 2026-07-15T23:59:59-04:00. -/
theorem spec_c4 :
    (∀ (tzName : String) (tz : Timezone) (event : Event) (st : EventTime)
        (ds : String) (y m d : Nat),
      findZone tzName = some tz →
      event.start = some st → st.dateTime = none → st.date = some ds →
      event.end_.isSome = true →
      parseDate ds.data = some (y, m, d) →
      ∃ s, get_event_signature tzName event = Except.ok s ∧
        s.start_time = some (renderIso ⟨⟨y, m, d, 0, 0, 0⟩,
          some (tz.offsetOfLocal ⟨y, m, d, 0, 0, 0⟩)⟩) ∧
        s.end_time = some (renderIso ⟨⟨y, m, d, 23, 59, 59⟩,
          some (tz.offsetOfLocal ⟨y, m, d, 23, 59, 59⟩)⟩)) ∧
    (∃ s, get_event_signature "America/New_York" c4Event = Except.ok s ∧
      s.start_time = some "2026-07-15T00:00:00-04:00" ∧
      s.end_time = some "2026-07-15T23:59:59-04:00") := by
  constructor
  · intro tzName tz event st ds y m d hz hstart hdtN hdate hend hds
    obtain ⟨en, hen⟩ := Option.isSome_iff_exists.mp hend
    have hc1 := convert_utc_naive ds y m d tzName tz
      ['T', '0', '0', ':', '0', '0', ':', '0', '0'] 0 0 0 hz hds
      (by decide) (by decide) (by decide) (by decide) (by decide) (by decide)
    have hc2 := convert_utc_naive ds y m d tzName tz
      ['T', '2', '3', ':', '5', '9', ':', '5', '9'] 23 59 59 hz hds
      (by decide) (by decide) (by decide) (by decide) (by decide) (by decide)
    have hsig : get_event_signature tzName event = Except.ok {
        title := event.summary.getD ""
        description := parse_html_links (event.description.getD "")
        start_time := some (convert_utc_to_timezone (ds ++ "T00:00:00") tzName)
        end_time := some (convert_utc_to_timezone (ds ++ "T23:59:59") tzName)
        location := event.location.getD ""
        is_discord_event := strIncludes (toLowerStr (event.location.getD "")) "discord" } := by
      simp [get_event_signature, hstart, hen, hdtN, hdate]
    refine ⟨_, hsig, ?_, ?_⟩
    · show some (convert_utc_to_timezone (ds ++ "T00:00:00") tzName) = _
      rw [show (ds ++ "T00:00:00")
            = ds ++ String.mk ['T', '0', '0', ':', '0', '0', ':', '0', '0'] from rfl, hc1]
    · show some (convert_utc_to_timezone (ds ++ "T23:59:59") tzName) = _
      rw [show (ds ++ "T23:59:59")
            = ds ++ String.mk ['T', '2', '3', ':', '5', '9', ':', '5', '9'] from rfl, hc2]
  · exact ⟨c4Sig, by decide, rfl, rfl⟩

/-- C4 witness: the universal part applied to the 2026-07-15 all-day event
with America/New_York. -/
theorem spec_c4_witness :
    ∃ s, get_event_signature "America/New_York" c4Event = Except.ok s ∧
      s.start_time = some "2026-07-15T00:00:00-04:00" ∧
      s.end_time = some "2026-07-15T23:59:59-04:00" := by
  obtain ⟨s, hok, hstart, hend⟩ := spec_c4.1 "America/New_York" americaNewYork c4Event
    ⟨none, some "2026-07-15"⟩ "2026-07-15" 2026 7 15 rfl rfl rfl rfl rfl (by decide)
  refine ⟨s, hok, ?_, ?_⟩
  · rw [hstart]; decide
  · rw [hend]; decide

/-! ## Claim C8 -/

/-- An event whose start dict is missing entirely. -/
def c8Event : Event :=
  { id := "g8", summary := none, description := none, location := none,
    start := none, end_ := some ⟨some "2026-01-01T10:00:00Z", none⟩,
    creator := none, attendees := none }

/-- C8 counterexample: get_event_signature is not total — an event whose
start key is absent raises KeyError at the event[start] access of main.py
line 234 instead of defaulting, so the claimed no-failure-mode contract does
not hold for every input event. -/
theorem spec_c8_counterexample :
    get_event_signature "UTC" c8Event = Except.error PyErr.keyError := by decide

/-- C8 (amended): the fingerprint builder is pure and raises no error for
every event that carries its start and end keys; the defensively read fields
— title, description, location — default to the empty string when absent (and
the voice-type flag is then false); events missing start or end raise
KeyError, and a start dict with neither dateTime nor date yields a null
start_time rather than an empty string. -/
theorem spec_c8 (timezone : String) (event : Event)
    (hs : event.start.isSome = true) (he : event.end_.isSome = true) :
    ∃ s, get_event_signature timezone event = Except.ok s ∧
      (event.summary = none → s.title = "") ∧
      (event.description = none → s.description = "") ∧
      (event.location = none → s.location = "" ∧ s.is_discord_event = false) ∧
      (∀ st, event.start = some st → st.dateTime = none → st.date = none →
        s.start_time = none) := by
  obtain ⟨st, hst⟩ := Option.isSome_iff_exists.mp hs
  obtain ⟨en, hen⟩ := Option.isSome_iff_exists.mp he
  cases hdate : st.date with
  | none =>
    cases hdt : st.dateTime with
    | none =>
      have hsig : get_event_signature timezone event = Except.ok
          { title := event.summary.getD ""
            description := parse_html_links (event.description.getD "")
            start_time := none
            end_time := (match en.dateTime with | some v => some v | none => en.date)
            location := event.location.getD ""
            is_discord_event := strIncludes (toLowerStr (event.location.getD "")) "discord" } := by
        simp [get_event_signature, hst, hen, hdate, hdt]
      refine ⟨_, hsig, ?_, ?_, ?_, ?_⟩
      · intro h; simp [h]
      · intro h; simp [h, parse_html_links, parseLinks, rewriteLinksF]
      · intro h; simp [h, toLowerStr, strIncludes, listIncludes]
      · intro _ _ _ _; rfl
    | some w =>
      have hsig : get_event_signature timezone event = Except.ok
          { title := event.summary.getD ""
            description := parse_html_links (event.description.getD "")
            start_time := some w
            end_time := (match en.dateTime with | some v => some v | none => en.date)
            location := event.location.getD ""
            is_discord_event := strIncludes (toLowerStr (event.location.getD "")) "discord" } := by
        simp [get_event_signature, hst, hen, hdate, hdt]
      refine ⟨_, hsig, ?_, ?_, ?_, ?_⟩
      · intro h; simp [h]
      · intro h; simp [h, parse_html_links, parseLinks, rewriteLinksF]
      · intro h; simp [h, toLowerStr, strIncludes, listIncludes]
      · intro st2 hst2 hdt2 _
        rw [hst] at hst2
        cases hst2
        rw [hdt] at hdt2
        exact absurd hdt2 (by simp)
  | some v =>
    cases hdt : st.dateTime with
    | none =>
      have hsig : get_event_signature timezone event = Except.ok
          { title := event.summary.getD ""
            description := parse_html_links (event.description.getD "")
            start_time := some (convert_utc_to_timezone (v ++ "T00:00:00") timezone)
            end_time := some (convert_utc_to_timezone (v ++ "T23:59:59") timezone)
            location := event.location.getD ""
            is_discord_event := strIncludes (toLowerStr (event.location.getD "")) "discord" } := by
        simp [get_event_signature, hst, hen, hdate, hdt]
      refine ⟨_, hsig, ?_, ?_, ?_, ?_⟩
      · intro h; simp [h]
      · intro h; simp [h, parse_html_links, parseLinks, rewriteLinksF]
      · intro h; simp [h, toLowerStr, strIncludes, listIncludes]
      · intro st2 hst2 _ hd2
        rw [hst] at hst2
        cases hst2
        rw [hdate] at hd2
        exact absurd hd2 (by simp)
    | some w =>
      have hsig : get_event_signature timezone event = Except.ok
          { title := event.summary.getD ""
            description := parse_html_links (event.description.getD "")
            start_time := some (convert_utc_to_timezone (w ++ "T00:00:00") timezone)
            end_time := some (convert_utc_to_timezone (w ++ "T23:59:59") timezone)
            location := event.location.getD ""
            is_discord_event := strIncludes (toLowerStr (event.location.getD "")) "discord" } := by
        simp [get_event_signature, hst, hen, hdate, hdt]
      refine ⟨_, hsig, ?_, ?_, ?_, ?_⟩
      · intro h; simp [h]
      · intro h; simp [h, parse_html_links, parseLinks, rewriteLinksF]
      · intro h; simp [h, toLowerStr, strIncludes, listIncludes]
      · intro st2 hst2 hdt2 _
        rw [hst] at hst2
        cases hst2
        rw [hdt] at hdt2
        exact absurd hdt2 (by simp)

/-- C8 witness: the amended theorem applied to an event with start and end
present but all defensively read fields absent. -/
theorem spec_c8_witness :
    ∃ s, get_event_signature "UTC"
        { id := "gw", summary := none, description := none, location := none,
          start := some ⟨some "2026-01-01T10:00:00Z", none⟩,
          end_ := some ⟨some "2026-01-01T11:00:00Z", none⟩,
          creator := none, attendees := none } = Except.ok s ∧
      s.title = "" ∧ s.description = "" ∧ s.location = "" := by
  obtain ⟨s, hok, h1, h2, h3, _⟩ := spec_c8 "UTC"
    { id := "gw", summary := none, description := none, location := none,
      start := some ⟨some "2026-01-01T10:00:00Z", none⟩,
      end_ := some ⟨some "2026-01-01T11:00:00Z", none⟩,
      creator := none, attendees := none } rfl rfl
  exact ⟨s, hok, h1 rfl, h2 rfl, (h3 rfl).1⟩

/-! ## Mapping store (load_synced_events / save_synced_events, main.py 21-35)

A stored entry of synced_events["events"] is a dict with keys
google_event_id, discord_event_id, date, title, channel, notes, signature;
the last five are the event_data block of main.py lines 520-526 (a legacy
entry may lack the signature key, hence Option). -/

structure EventData where
  date : Option String
  title : String
  channel : String
  notes : String
  signature : Option Signature
deriving DecidableEq, Repr

structure Link where
  google_event_id : String
  discord_event_id : String
  data : EventData
deriving DecidableEq, Repr

structure SyncedDoc where
  events : List Link
deriving DecidableEq, Repr

/-- The persisted file as load_synced_events observes it: either absent, or
present with the outcome of running json.load (Python's standard-library
parser, external to this repository, abstracted by its result: ok for valid
content, error carrying the JSONDecodeError message for corrupt content). -/
inductive FileState
  | absent
  | present (parsed : Except String SyncedDoc)

/-- load_synced_events (main.py 21-28): when the file exists the json.load
result — including a raised JSONDecodeError — is returned as is; only the
absent-file case is handled, yielding the empty document. -/
def load_synced_events : FileState → Except String SyncedDoc
  | FileState.absent => Except.ok ⟨[]⟩
  | FileState.present r => r

/-! ## Discord listing (get_discord_events, main.py 332-346) -/

structure DiscordEvent where
  id : String
deriving DecidableEq, Repr

/-- get_discord_events (main.py 332-346): the parsed body on HTTP 200,
the empty list on any other status. -/
def get_discord_events (status : Nat) (body : List DiscordEvent) : List DiscordEvent :=
  if status = 200 then body else []

/-! ## Rate-limit retry executor
(create_or_update_discord_event / delete_discord_event, main.py 348-481)

One remote call is abstracted by the trace of responses the Discord API
returns to the successive requests of a single action: rs n is the response
to request number n.  The body of a 429 response is the outcome of parsing
retry_after (parsed with an optional numeric field, or unparseable when
response.json() raises); the returnedId field is response.json().get(id)
read on success. -/

inductive RateLimitBody
  | parsed (retry_after : Option Rat)
  | unparseable
deriving DecidableEq, Repr

structure ApiResponse where
  status : Nat
  body : RateLimitBody
  returnedId : Option String
deriving DecidableEq, Repr

/-- Seconds slept before a retry of a rate-limited request: the parsed hint
plus the 0.5 buffer, 5.0 plus the buffer when the retry_after key is absent
(dict.get default), plain 5.0 in the except-branch when the body cannot be
parsed (main.py 403-421 and 453-471). -/
def sleepFor (r : ApiResponse) : Rat :=
  match r.body with
  | RateLimitBody.parsed (some q) => q + 1 / 2
  | RateLimitBody.parsed none => 5 + 1 / 2
  | RateLimitBody.unparseable => 5

structure RetryOutcome where
  finalResponse : ApiResponse
  retries : Nat
  sleeps : List Rat
deriving DecidableEq, Repr

/-- The while-loop of main.py lines 403-421: retry while the response is 429
and fewer than max_retries = 3 retries have been made, recording each sleep. -/
def rateLimitRetryGo (rs : Nat → ApiResponse) (resp : ApiResponse) (next : Nat)
    (count : Nat) (sleeps : List Rat) : RetryOutcome :=
  if resp.status = 429 ∧ count < 3 then
    rateLimitRetryGo rs (rs next) (next + 1) (count + 1) (sleeps ++ [sleepFor resp])
  else ⟨resp, count, sleeps⟩
termination_by 3 - count
decreasing_by omega

/-- Initial request plus the retry loop. -/
def rateLimitRetry (rs : Nat → ApiResponse) : RetryOutcome :=
  rateLimitRetryGo rs (rs 0) 1 0 []

/-- The value create_or_update_discord_event returns (main.py 426-437):
the id field of the body on 200/201, None otherwise (429 after exhausting
retries included). -/
def create_or_update_result (rs : Nat → ApiResponse) : Option String :=
  let out := rateLimitRetry rs
  if out.finalResponse.status = 200 ∨ out.finalResponse.status = 201 then
    out.finalResponse.returnedId
  else none

/-- Whether delete_discord_event observed success (main.py 476-481).  The
function returns None in Python; this flag records which log branch ran. -/
def delete_result (rs : Nat → ApiResponse) : Bool :=
  (rateLimitRetry rs).finalResponse.status = 204

/-! ## One synchronization cycle (sync_events_loop body, main.py 498-578)

The remote side is abstracted by an Oracle: exec e did? is the value
create_or_update_discord_event(event, discord_event_id) returns for this
cycle (some id on success, none on failure — create_or_update_result of the
underlying response trace), and deleteOk is whether the DELETE call
succeeds.  sync_events_cycle runs the body of one loop iteration after the
fetches: the per-event pass over filtered_events against the store and the
snapshot of Discord ids, then the stale-link delete pass.  Alongside the
store it returns the list of attempted remote mutations (the claims' actions)
and the resulting set of event ids present on Discord (created ids appear,
successfully deleted ids disappear). -/

structure Oracle where
  exec : Event → Option String → Option String
  deleteOk : String → Bool

inductive Action
  | create (e : Event)
  | update (e : Event) (did : String)
  | recreate (e : Event)
  | delete (did : String) (gid : String)
deriving DecidableEq, Repr

/-- synced_event.update(event_data) on a stored entry. -/
def applyEventData (l : Link) (d : EventData) : Link :=
  { l with data := d }

/-- The for-loop over synced_events["events"] of main.py lines 530-555:
find the first entry with the matching google_event_id, recreate it when its
discord id is not in the snapshot, update it when the signature differs,
otherwise skip; entries before and after the first match are untouched. -/
def processLinked (timezone : String) (o : Oracle) (initIds : List String)
    (e : Event) (edata : EventData) :
    List Link → Except PyErr (List Link × List Action × List String)
  | [] => Except.ok ([], [], [])
  | l :: ls =>
    if l.google_event_id = e.id then
      if l.discord_event_id ∈ initIds then
        match events_are_different timezone e l.data.signature with
        | Except.error err => Except.error err
        | Except.ok diff =>
          if diff then
            match o.exec e (some l.discord_event_id) with
            | some _ =>
              Except.ok (applyEventData l edata :: ls,
                [Action.update e l.discord_event_id], [])
            | none =>
              Except.ok (l :: ls, [Action.update e l.discord_event_id], [])
          else Except.ok (l :: ls, [], [])
      else
        match o.exec e none with
        | some nid =>
          Except.ok ({ applyEventData l edata with discord_event_id := nid } :: ls,
            [Action.recreate e], [nid])
        | none => Except.ok (l :: ls, [Action.recreate e], [])
    else
      match processLinked timezone o initIds e edata ls with
      | Except.error err => Except.error err
      | Except.ok (ls2, acts, created) => Except.ok (l :: ls2, acts, created)

structure P1Acc where
  store : List Link
  actions : List Action
  created : List String
deriving DecidableEq, Repr

/-- The event_data dict of main.py lines 520-526: the raw start instant, the
raising event[summary] access (title is its value), the configured channel,
the defensively read description, and the freshly built signature. -/
def mkEventData (chan : String) (st : EventTime) (title : String) (e : Event)
    (cur : Signature) : EventData :=
  { date := (match st.dateTime with | some v => some v | none => st.date)
    title := title
    channel := chan
    notes := e.description.getD ""
    signature := some cur }

/-- One iteration of the for-loop over filtered_events (main.py 516-565):
build the signature and event_data (raising accesses as in the source), then
either walk the store for the first matching link, or create the event and
append a fresh link on success. -/
def processEvent (timezone chan : String) (o : Oracle) (initIds : List String)
    (acc : P1Acc) (e : Event) : Except PyErr P1Acc :=
  match get_event_signature timezone e with
  | Except.error err => Except.error err
  | Except.ok currentSig =>
    match e.start with
    | none => Except.error PyErr.keyError
    | some st =>
      match e.summary with
      | none => Except.error PyErr.keyError
      | some title =>
        let edata : EventData := mkEventData chan st title e currentSig
        if acc.store.any (fun l => l.google_event_id = e.id) then
          match processLinked timezone o initIds e edata acc.store with
          | Except.error err => Except.error err
          | Except.ok (st2, acts, created) =>
            Except.ok ⟨st2, acc.actions ++ acts, acc.created ++ created⟩
        else
          match o.exec e none with
          | some nid =>
            Except.ok ⟨acc.store ++
              [{ google_event_id := e.id, discord_event_id := nid, data := edata }],
              acc.actions ++ [Action.create e], acc.created ++ [nid]⟩
          | none => Except.ok ⟨acc.store, acc.actions ++ [Action.create e], acc.created⟩

/-- The whole first pass. -/
def runPhase1 (timezone chan : String) (o : Oracle) (initIds : List String) :
    List Event → P1Acc → Except PyErr P1Acc
  | [], acc => Except.ok acc
  | e :: es, acc =>
    match processEvent timezone chan o initIds acc e with
    | Except.error err => Except.error err
    | Except.ok acc2 => runPhase1 timezone chan o initIds es acc2

/-- The delete pass of main.py lines 567-575: iterate over a copy of the
store; every link whose google id is not among the filtered ids triggers one
delete call and is removed from the store regardless of the call's outcome
(the source ignores the result of delete_discord_event); the remote set loses
the id only when the delete succeeded. -/
def deletePass (o : Oracle) (fids : List String) :
    List Link → List String → List Link × List Action × List String
  | [], remote => ([], [], remote)
  | l :: ls, remote =>
    if l.google_event_id ∈ fids then
      let r := deletePass o fids ls remote
      (l :: r.1, r.2.1, r.2.2)
    else
      let remote2 :=
        if o.deleteOk l.discord_event_id then
          remote.filter (fun x => !(x = l.discord_event_id))
        else remote
      let r := deletePass o fids ls remote2
      (r.1, Action.delete l.discord_event_id l.google_event_id :: r.2.1, r.2.2)

structure CycleResult where
  store : List Link
  actions : List Action
  remote : List String
deriving DecidableEq, Repr

/-- One full cycle body after the fetches (main.py 509-575). -/
def sync_events_cycle (timezone chan : String) (o : Oracle) (filteredEvents : List Event)
    (discordIds : List String) (store : List Link) : Except PyErr CycleResult :=
  match runPhase1 timezone chan o discordIds filteredEvents ⟨store, [], []⟩ with
  | Except.error err => Except.error err
  | Except.ok acc =>
    let fids := filteredEvents.map (fun e => e.id)
    let r := deletePass o fids acc.store (discordIds ++ acc.created)
    Except.ok ⟨r.1, acc.actions ++ r.2.1, r.2.2⟩

/-! ## Claim C6 -/

/-- C6 counterexample: a present file whose content json.load rejects makes
load_synced_events propagate the parse error — the json.load call at main.py
line 27 is not wrapped in any handler — so load does not return the empty
state for every file content and can raise. -/
theorem spec_c6_counterexample :
    load_synced_events
        (FileState.present (Except.error "Expecting value: line 1 column 1 (char 0)"))
      = Except.error "Expecting value: line 1 column 1 (char 0)" := rfl

/-- C6 (amended): loading the persisted mapping document returns the empty
state when the file is absent (this is not an error), and when the file is
present load returns exactly what json.load yields — the stored SyncLink set
for valid content, and the raised parse error for corrupt content, which is
not converted into the empty state. -/
theorem spec_c6 :
    load_synced_events FileState.absent = Except.ok ⟨[]⟩ ∧
    ∀ r, load_synced_events (FileState.present r) = r :=
  ⟨rfl, fun _ => rfl⟩

/-! ### Decomposition lemmas for the per-event pass -/

theorem append_eq_append_cases {α : Type} :
    ∀ (p : List α) (l : α) (q : List α) (p2 : List α) (lm : α) (q2 : List α),
      p ++ l :: q = p2 ++ lm :: q2 →
      (p = p2 ∧ l = lm ∧ q = q2) ∨
      (∃ mid, p2 = p ++ l :: mid ∧ q = mid ++ lm :: q2) ∨
      (∃ mid, p = p2 ++ lm :: mid ∧ q2 = mid ++ l :: q) := by
  intro p
  induction p with
  | nil =>
    intro l q p2 lm q2 h
    cases p2 with
    | nil =>
      simp only [List.nil_append, List.cons.injEq] at h
      exact Or.inl ⟨rfl, h.1, h.2⟩
    | cons a p2t =>
      simp only [List.nil_append, List.cons_append, List.cons.injEq] at h
      exact Or.inr (Or.inl ⟨p2t, by simp [h.1], h.2⟩)
  | cons b pt ih =>
    intro l q p2 lm q2 h
    cases p2 with
    | nil =>
      simp only [List.cons_append, List.nil_append, List.cons.injEq] at h
      exact Or.inr (Or.inr ⟨pt, by simp [h.1], h.2.symm⟩)
    | cons a p2t =>
      simp only [List.cons_append, List.cons.injEq] at h
      obtain ⟨hba, h2⟩ := h
      rcases ih l q p2t lm q2 h2 with h3 | ⟨mid, hm1, hm2⟩ | ⟨mid, hm1, hm2⟩
      · exact Or.inl ⟨by simp [hba, h3.1], h3.2.1, h3.2.2⟩
      · exact Or.inr (Or.inl ⟨mid, by simp [hba, hm1], hm2⟩)
      · exact Or.inr (Or.inr ⟨mid, by simp [hba, hm1], hm2⟩)

/-- The five ways a matched store entry can evolve in the linked branch of a
per-event pass (main.py 530-555): update applied, update failed, unchanged,
recreate applied, recreate failed. -/
def BranchFacts (timezone : String) (o : Oracle) (initIds : List String) (e : Event)
    (edata : EventData) (l l2 : Link) (acts : List Action) (cr : List String) : Prop :=
  (l.discord_event_id ∈ initIds ∧
    events_are_different timezone e l.data.signature = Except.ok true ∧
    (∃ y, o.exec e (some l.discord_event_id) = some y) ∧
    l2 = applyEventData l edata ∧ acts = [Action.update e l.discord_event_id] ∧ cr = []) ∨
  (l.discord_event_id ∈ initIds ∧
    events_are_different timezone e l.data.signature = Except.ok true ∧
    o.exec e (some l.discord_event_id) = none ∧
    l2 = l ∧ acts = [Action.update e l.discord_event_id] ∧ cr = []) ∨
  (l.discord_event_id ∈ initIds ∧
    events_are_different timezone e l.data.signature = Except.ok false ∧
    l2 = l ∧ acts = [] ∧ cr = []) ∨
  (l.discord_event_id ∉ initIds ∧
    (∃ nid, o.exec e none = some nid ∧
      l2 = { applyEventData l edata with discord_event_id := nid } ∧ cr = [nid]) ∧
    acts = [Action.recreate e]) ∨
  (l.discord_event_id ∉ initIds ∧ o.exec e none = none ∧
    l2 = l ∧ acts = [Action.recreate e] ∧ cr = [])

theorem processLinked_nomatch (timezone : String) (o : Oracle) (initIds : List String)
    (e : Event) (edata : EventData) :
    ∀ (ls : List Link), (∀ x ∈ ls, x.google_event_id ≠ e.id) →
      processLinked timezone o initIds e edata ls = Except.ok (ls, [], []) := by
  intro ls
  induction ls with
  | nil => intro _; rfl
  | cons l lt ih =>
    intro h
    have hl : l.google_event_id ≠ e.id := h l (by simp)
    have ht := ih (fun x hx => h x (by simp [hx]))
    simp only [processLinked, if_neg hl, ht]

theorem processLinked_decomp (timezone : String) (o : Oracle) (initIds : List String)
    (e : Event) (edata : EventData) :
    ∀ (ls ls2 : List Link) (acts : List Action) (cr : List String),
      processLinked timezone o initIds e edata ls = Except.ok (ls2, acts, cr) →
      ((∀ x ∈ ls, x.google_event_id ≠ e.id) ∧ ls2 = ls ∧ acts = [] ∧ cr = []) ∨
      (∃ p l q l2, ls = p ++ l :: q ∧ (∀ x ∈ p, x.google_event_id ≠ e.id) ∧
        l.google_event_id = e.id ∧ ls2 = p ++ l2 :: q ∧ l2.google_event_id = e.id ∧
        BranchFacts timezone o initIds e edata l l2 acts cr) := by
  intro ls
  induction ls with
  | nil =>
    intro ls2 acts cr h
    simp only [processLinked, Except.ok.injEq, Prod.mk.injEq] at h
    exact Or.inl ⟨by simp, h.1.symm, h.2.1.symm, h.2.2.symm⟩
  | cons l lt ih =>
    intro ls2 acts cr h
    by_cases hl : l.google_event_id = e.id
    · right
      simp only [processLinked, if_pos hl] at h
      by_cases hdid : l.discord_event_id ∈ initIds
      · rw [if_pos hdid] at h
        cases hdiff : events_are_different timezone e l.data.signature with
        | error err => simp only [hdiff] at h; exact absurd h (by simp)
        | ok diff =>
          simp only [hdiff] at h
          cases diff with
          | true =>
            rw [if_pos (Eq.refl true)] at h
            cases hexec : o.exec e (some l.discord_event_id) with
            | some y =>
              simp only [hexec] at h
              simp only [Except.ok.injEq, Prod.mk.injEq] at h
              refine ⟨[], l, lt, applyEventData l edata, by simp, by simp, hl, ?_, ?_, ?_⟩
              · simp [← h.1]
              · simp [hl, applyEventData]
              · exact Or.inl ⟨hdid, hdiff, ⟨y, hexec⟩, rfl, h.2.1.symm, h.2.2.symm⟩
            | none =>
              simp only [hexec] at h
              simp only [Except.ok.injEq, Prod.mk.injEq] at h
              refine ⟨[], l, lt, l, by simp, by simp, hl, by simp [← h.1], hl, ?_⟩
              exact Or.inr (Or.inl ⟨hdid, hdiff, hexec, rfl, h.2.1.symm, h.2.2.symm⟩)
          | false =>
            rw [if_neg (by simp)] at h
            simp only [Except.ok.injEq, Prod.mk.injEq] at h
            refine ⟨[], l, lt, l, by simp, by simp, hl, by simp [← h.1], hl, ?_⟩
            exact Or.inr (Or.inr (Or.inl ⟨hdid, hdiff, rfl, h.2.1.symm, h.2.2.symm⟩))
      · rw [if_neg hdid] at h
        cases hexec : o.exec e none with
        | some nid =>
          simp only [hexec] at h
          simp only [Except.ok.injEq, Prod.mk.injEq] at h
          refine ⟨[], l, lt, { applyEventData l edata with discord_event_id := nid },
            by simp, by simp, hl, by simp [← h.1], by simp [applyEventData, hl], ?_⟩
          exact Or.inr (Or.inr (Or.inr (Or.inl
            ⟨hdid, ⟨nid, hexec, rfl, h.2.2.symm⟩, h.2.1.symm⟩)))
        | none =>
          simp only [hexec] at h
          simp only [Except.ok.injEq, Prod.mk.injEq] at h
          refine ⟨[], l, lt, l, by simp, by simp, hl, by simp [← h.1], hl, ?_⟩
          exact Or.inr (Or.inr (Or.inr (Or.inr ⟨hdid, hexec, rfl, h.2.1.symm, h.2.2.symm⟩)))
    · simp only [processLinked, if_neg hl] at h
      cases hrec : processLinked timezone o initIds e edata lt with
      | error err => simp only [hrec] at h; exact absurd h (by simp)
      | ok trip =>
        obtain ⟨lt2, acts2, cr2⟩ := trip
        simp only [hrec] at h
        simp only [Except.ok.injEq, Prod.mk.injEq] at h
        rcases ih lt2 acts2 cr2 hrec with ⟨hno, he1, he2, he3⟩ | ⟨p, lx, q, l2, hd1, hd2, hd3, hd4, hd5, hd6⟩
        · left
          refine ⟨?_, ?_, ?_, ?_⟩
          · intro x hx
            rcases List.mem_cons.mp hx with hx1 | hx2
            · rw [hx1]; exact hl
            · exact hno x hx2
          · rw [← h.1, he1]
          · rw [← h.2.1, he2]
          · rw [← h.2.2, he3]
        · right
          refine ⟨l :: p, lx, q, l2, by simp [hd1], ?_, hd3, ?_, hd5, ?_⟩
          · intro x hx
            rcases List.mem_cons.mp hx with hx1 | hx2
            · rw [hx1]; exact hl
            · exact hd2 x hx2
          · rw [← h.1, hd4]; simp
          · rw [h.2.1, h.2.2] at hd6
            exact hd6

theorem mkEventData_signature (chan : String) (st : EventTime) (title : String)
    (e : Event) (cur : Signature) :
    (mkEventData chan st title e cur).signature = some cur := rfl

/-- Successful per-event passes take exactly one of three shapes: linked
(first matching store entry processed), create applied (fresh link appended),
or create failed (store unchanged). -/
theorem processEvent_inversion (timezone chan : String) (o : Oracle) (initIds : List String)
    (acc : P1Acc) (e : Event) (acc2 : P1Acc)
    (h : processEvent timezone chan o initIds acc e = Except.ok acc2) :
    ∃ cur st title,
      get_event_signature timezone e = Except.ok cur ∧
      e.start = some st ∧ e.summary = some title ∧
      ((acc.store.any (fun l => l.google_event_id = e.id) = true ∧
        ∃ st2 acts cr, processLinked timezone o initIds e (mkEventData chan st title e cur)
            acc.store = Except.ok (st2, acts, cr) ∧
          acc2 = ⟨st2, acc.actions ++ acts, acc.created ++ cr⟩) ∨
      (acc.store.any (fun l => l.google_event_id = e.id) = false ∧
        ∃ nid, o.exec e none = some nid ∧
          acc2 = ⟨acc.store ++ [⟨e.id, nid, mkEventData chan st title e cur⟩],
            acc.actions ++ [Action.create e], acc.created ++ [nid]⟩) ∨
      (acc.store.any (fun l => l.google_event_id = e.id) = false ∧
        o.exec e none = none ∧
        acc2 = ⟨acc.store, acc.actions ++ [Action.create e], acc.created⟩)) := by
  unfold processEvent at h
  cases hsig : get_event_signature timezone e with
  | error err => simp only [hsig] at h; exact absurd h (by simp)
  | ok cur =>
  simp only [hsig] at h
  cases hstart : e.start with
  | none => simp only [hstart] at h; exact absurd h (by simp)
  | some st =>
  simp only [hstart] at h
  cases hsum : e.summary with
  | none => simp only [hsum] at h; exact absurd h (by simp)
  | some title =>
  simp only [hsum] at h
  refine ⟨cur, st, title, rfl, rfl, rfl, ?_⟩
  by_cases hany : acc.store.any (fun l => l.google_event_id = e.id)
  · rw [if_pos hany] at h
    cases hpl : processLinked timezone o initIds e (mkEventData chan st title e cur)
        acc.store with
    | error err => simp only [hpl] at h; exact absurd h (by simp)
    | ok trip =>
      obtain ⟨st2, acts, cr⟩ := trip
      simp only [hpl] at h
      simp only [Except.ok.injEq] at h
      exact Or.inl ⟨hany, st2, acts, cr, rfl, h.symm⟩
  · rw [if_neg hany] at h
    cases hexec : o.exec e none with
    | some nid =>
      simp only [hexec] at h
      simp only [Except.ok.injEq] at h
      exact Or.inr (Or.inl ⟨by simpa using hany, nid, rfl, h.symm⟩)
    | none =>
      simp only [hexec] at h
      simp only [Except.ok.injEq] at h
      exact Or.inr (Or.inr ⟨by simpa using hany, rfl, h.symm⟩)

/-- A stored signature equal to the freshly computed one makes
events_are_different report false, and conversely. -/
theorem events_not_different (timezone : String) (e : Event) (stored : Option Signature)
    (cur : Signature) (hsig : get_event_signature timezone e = Except.ok cur)
    (h : events_are_different timezone e stored = Except.ok false) : stored = some cur := by
  cases stored with
  | none => simp [events_are_different] at h
  | some s =>
    unfold events_are_different at h
    rw [hsig] at h
    simp only [mapOk, Except.ok.injEq] at h
    simp only [decide_eq_false_iff_not, not_not] at h
    rw [h]

/-- A per-event pass leaves a store whose first match carries the current
signature and sits at an id in the initial snapshot untouched. -/
theorem processLinked_noop (timezone : String) (o : Oracle) (initIds : List String)
    (e : Event) (edata : EventData) (cur : Signature)
    (hsig : get_event_signature timezone e = Except.ok cur) :
    ∀ (p : List Link) (l : Link) (q : List Link),
      (∀ x ∈ p, x.google_event_id ≠ e.id) →
      l.google_event_id = e.id →
      l.discord_event_id ∈ initIds →
      l.data.signature = some cur →
      processLinked timezone o initIds e edata (p ++ l :: q)
        = Except.ok (p ++ l :: q, [], []) := by
  intro p
  induction p with
  | nil =>
    intro l q _ hl hdid hsigl
    have hdiff : events_are_different timezone e l.data.signature = Except.ok false := by
      rw [hsigl]
      unfold events_are_different
      rw [hsig]
      simp [mapOk]
    simp only [List.nil_append, processLinked, if_pos hl, if_pos hdid, hdiff]
    rw [if_neg (by simp)]
  | cons a pt ih =>
    intro l q hp hl hdid hsigl
    have ha : a.google_event_id ≠ e.id := hp a (by simp)
    have ht := ih l q (fun x hx => hp x (by simp [hx])) hl hdid hsigl
    simp only [List.cons_append, processLinked, List.append_eq, if_neg ha, ht]

/-- Replacing one entry whose google id differs from g keeps the first
g-match of a list, up to reshuffling the decomposition. -/
theorem first_match_replace (g : String) (l lm l2 : Link)
    (p q p2 q2 : List Link)
    (h : p ++ l :: q = p2 ++ lm :: q2)
    (hl : l.google_event_id = g)
    (hp : ∀ x ∈ p, x.google_event_id ≠ g)
    (hlm : lm.google_event_id ≠ g) (hl2 : l2.google_event_id ≠ g) :
    ∃ p3 q3, p2 ++ l2 :: q2 = p3 ++ l :: q3 ∧ ∀ x ∈ p3, x.google_event_id ≠ g := by
  rcases append_eq_append_cases p l q p2 lm q2 h with
    ⟨h1, h2, h3⟩ | ⟨mid, hm1, hm2⟩ | ⟨mid, hm1, hm2⟩
  · exact absurd (h2 ▸ hl) hlm
  · refine ⟨p, mid ++ l2 :: q2, ?_, hp⟩
    rw [hm1]
    simp
  · refine ⟨p2 ++ l2 :: mid, q, ?_, ?_⟩
    · rw [hm2]
      simp
    · intro x hx
      rcases List.mem_append.mp hx with hx1 | hx2
      · exact hp x (by rw [hm1]; exact List.mem_append.mpr (Or.inl hx1))
      · rcases List.mem_cons.mp hx2 with hx3 | hx4
        · rw [hx3]; exact hl2
        · exact hp x (by rw [hm1]; simp [hx4])

/-- The invariant behind the idempotence argument: the store has a first
entry for the event's google id, its stored signature equals the freshly
computed fingerprint of the event, and its discord id satisfies P. -/
def GoodLink (timezone : String) (e : Event) (ls : List Link) (P : String → Prop) : Prop :=
  ∃ p l q, ls = p ++ l :: q ∧ (∀ x ∈ p, x.google_event_id ≠ e.id) ∧
    l.google_event_id = e.id ∧
    (∃ cur, get_event_signature timezone e = Except.ok cur ∧ l.data.signature = some cur) ∧
    P l.discord_event_id

/-- A successful per-event pass with a successful-and-fresh oracle leaves a
good first entry for the processed event (created, recreated, updated or
already clean). -/
theorem processEvent_good (timezone chan : String) (o : Oracle) (initIds : List String)
    (store0 : List Link) (staleDids : List String)
    (acc : P1Acc) (e : Event) (acc2 : P1Acc)
    (h : processEvent timezone chan o initIds acc e = Except.ok acc2)
    (hsucc : ∀ i, (o.exec e i).isSome = true)
    (hfresh : ∀ e2 i s, o.exec e2 i = some s → s ∉ staleDids)
    (horig : ∀ l ∈ acc.store, l.google_event_id = e.id → l ∈ store0)
    (hstalee : ∀ l ∈ store0, l.google_event_id = e.id → l.discord_event_id ∉ staleDids) :
    GoodLink timezone e acc2.store
      (fun did => (did ∈ initIds ∨ did ∈ acc2.created) ∧ did ∉ staleDids) := by
  obtain ⟨cur, st, title, hsig, hstart, hsum, hcases⟩ :=
    processEvent_inversion timezone chan o initIds acc e acc2 h
  rcases hcases with ⟨hany, st2, acts, cr, hpl, hacc⟩ |
    ⟨hany, nid, hexec, hacc⟩ | ⟨hany, hexec, hacc⟩
  · rcases processLinked_decomp timezone o initIds e (mkEventData chan st title e cur)
        acc.store st2 acts cr hpl with
      ⟨hno, _, _, _⟩ | ⟨p, lm, q, l2, hd1, hd2, hd3, hd4, hd5, hbf⟩
    · exfalso
      rcases List.any_eq_true.mp hany with ⟨x, hx1, hx2⟩
      exact hno x hx1 (by simpa using hx2)
    · have hstore2 : acc2.store = p ++ l2 :: q := by rw [hacc]; exact hd4
      have hlmstore : lm ∈ acc.store := by rw [hd1]; simp
      have hlmstale : lm.discord_event_id ∉ staleDids :=
        hstalee lm (horig lm hlmstore hd3) hd3
      rcases hbf with ⟨hdid, hdiff, ⟨y, hex⟩, hl2, hacts, hcr⟩ |
        ⟨hdid, hdiff, hex, hl2, hacts, hcr⟩ | ⟨hdid, hdiff, hl2, hacts, hcr⟩ |
        ⟨hdid, ⟨nid, hex, hl2, hcr⟩, hacts⟩ | ⟨hdid, hex, hl2, hacts, hcr⟩
      · refine ⟨p, l2, q, hstore2, hd2, hd5, ⟨cur, hsig, ?_⟩, ?_⟩
        · rw [hl2]
          rfl
        · rw [hl2]
          exact ⟨Or.inl hdid, hlmstale⟩
      · exfalso
        have hs := hsucc (some lm.discord_event_id)
        rw [hex] at hs
        simp at hs
      · have hstored := events_not_different timezone e lm.data.signature cur hsig hdiff
        refine ⟨p, l2, q, hstore2, hd2, hd5, ⟨cur, hsig, ?_⟩, ?_⟩
        · rw [hl2]
          exact hstored
        · rw [hl2]
          exact ⟨Or.inl hdid, hlmstale⟩
      · refine ⟨p, l2, q, hstore2, hd2, hd5, ⟨cur, hsig, ?_⟩, ?_⟩
        · rw [hl2]
          rfl
        · rw [hl2]
          refine ⟨Or.inr ?_, hfresh e none nid hex⟩
          rw [hacc, hcr]
          simp
      · exfalso
        have hs := hsucc none
        rw [hex] at hs
        simp at hs
  · have hnomatch : ∀ x ∈ acc.store, x.google_event_id ≠ e.id := by
      intro x hx hgx
      have hat : acc.store.any (fun l => l.google_event_id = e.id) = true :=
        List.any_eq_true.mpr ⟨x, hx, by simpa using hgx⟩
      rw [hany] at hat
      simp at hat
    refine ⟨acc.store, ⟨e.id, nid, mkEventData chan st title e cur⟩, [],
      ?_, hnomatch, rfl, ⟨cur, hsig, rfl⟩, ?_⟩
    · rw [hacc]
    · refine ⟨Or.inr ?_, hfresh e none nid hexec⟩
      rw [hacc]
      simp
  · exfalso
    have hs := hsucc none
    rw [hexec] at hs
    simp at hs

/-- A successful per-event pass for a different event preserves a good first
entry (the created-id pool only grows and the touched entry has the other
event's google id). -/
theorem processEvent_preserves_good (timezone chan : String) (o : Oracle)
    (initIds : List String) (staleDids : List String)
    (acc : P1Acc) (e2 : Event) (acc2 : P1Acc) (e : Event)
    (h : processEvent timezone chan o initIds acc e2 = Except.ok acc2)
    (hne : e2.id ≠ e.id)
    (hg : GoodLink timezone e acc.store
      (fun did => (did ∈ initIds ∨ did ∈ acc.created) ∧ did ∉ staleDids)) :
    GoodLink timezone e acc2.store
      (fun did => (did ∈ initIds ∨ did ∈ acc2.created) ∧ did ∉ staleDids) := by
  obtain ⟨p, l, q, hls, hp, hl, hsigl, hP⟩ := hg
  obtain ⟨cur, st, title, hsig2, hstart, hsum, hcases⟩ :=
    processEvent_inversion timezone chan o initIds acc e2 acc2 h
  have hcrmono : ∀ d, d ∈ acc.created → d ∈ acc2.created := by
    rcases hcases with ⟨_, _, _, _, _, hacc⟩ | ⟨_, _, _, hacc⟩ | ⟨_, _, hacc⟩ <;>
      · intro d hd
        rw [hacc]
        simp [hd]
  have hPmono : ∀ d, (d ∈ initIds ∨ d ∈ acc.created) ∧ d ∉ staleDids →
      (d ∈ initIds ∨ d ∈ acc2.created) ∧ d ∉ staleDids := by
    rintro d ⟨hd1 | hd2, hd3⟩
    · exact ⟨Or.inl hd1, hd3⟩
    · exact ⟨Or.inr (hcrmono d hd2), hd3⟩
  rcases hcases with ⟨hany, st2, acts, cr, hpl, hacc⟩ |
    ⟨hany, nid, hexec, hacc⟩ | ⟨hany, hexec, hacc⟩
  · rcases processLinked_decomp timezone o initIds e2 (mkEventData chan st title e2 cur)
        acc.store st2 acts cr hpl with
      ⟨_, heq, _, _⟩ | ⟨p2, lm, q2, l2, hd1, hd2, hd3, hd4, hd5, _⟩
    · refine ⟨p, l, q, ?_, hp, hl, hsigl, hPmono _ hP⟩
      rw [hacc]
      show st2 = p ++ l :: q
      rw [heq, hls]
    · obtain ⟨p3, q3, heq3, hp3⟩ := first_match_replace e.id l lm l2 p q p2 q2
        (hls.symm.trans hd1) hl hp (by rw [hd3]; exact hne) (by rw [hd5]; exact hne)
      refine ⟨p3, l, q3, ?_, hp3, hl, hsigl, hPmono _ hP⟩
      rw [hacc]
      show st2 = p3 ++ l :: q3
      rw [hd4, heq3]
  · refine ⟨p, l, q ++ [⟨e2.id, nid, mkEventData chan st title e2 cur⟩], ?_, hp, hl,
      hsigl, hPmono _ hP⟩
    rw [hacc]
    show acc.store ++ _ = _
    rw [hls]
    simp
  · refine ⟨p, l, q, ?_, hp, hl, hsigl, hPmono _ hP⟩
    rw [hacc]
    exact hls

theorem processEvent_mem_rev (timezone chan : String) (o : Oracle) (initIds : List String)
    (acc : P1Acc) (e : Event) (acc2 : P1Acc)
    (h : processEvent timezone chan o initIds acc e = Except.ok acc2) :
    ∀ x ∈ acc2.store, x ∈ acc.store ∨ x.google_event_id = e.id := by
  obtain ⟨cur, st, title, _, _, _, hcases⟩ :=
    processEvent_inversion timezone chan o initIds acc e acc2 h
  intro x hx
  rcases hcases with ⟨hany, st2, acts, cr, hpl, hacc⟩ |
    ⟨hany, nid, hexec, hacc⟩ | ⟨hany, hexec, hacc⟩
  · rw [hacc] at hx
    rcases processLinked_decomp timezone o initIds e (mkEventData chan st title e cur)
        acc.store st2 acts cr hpl with
      ⟨_, heq, _, _⟩ | ⟨p, lm, q, l2, hd1, _, _, hd4, hd5, _⟩
    · rw [heq] at hx
      exact Or.inl hx
    · rw [hd4] at hx
      show x ∈ acc.store ∨ _
      rw [hd1]
      rcases List.mem_append.mp hx with hx1 | hx2
      · exact Or.inl (List.mem_append.mpr (Or.inl hx1))
      · rcases List.mem_cons.mp hx2 with hx3 | hx4
        · exact Or.inr (hx3 ▸ hd5)
        · exact Or.inl (by simp [hx4])
  · rw [hacc] at hx
    rcases List.mem_append.mp hx with hx1 | hx2
    · exact Or.inl hx1
    · rcases List.mem_cons.mp hx2 with hx3 | hx4
      · exact Or.inr (by rw [hx3])
      · simp at hx4
  · rw [hacc] at hx
    exact Or.inl hx

theorem processEvent_untouched (timezone chan : String) (o : Oracle) (initIds : List String)
    (acc : P1Acc) (e : Event) (acc2 : P1Acc)
    (h : processEvent timezone chan o initIds acc e = Except.ok acc2)
    (l : Link) (hmem : l ∈ acc.store) (hne : l.google_event_id ≠ e.id) :
    l ∈ acc2.store := by
  obtain ⟨cur, st, title, _, _, _, hcases⟩ :=
    processEvent_inversion timezone chan o initIds acc e acc2 h
  rcases hcases with ⟨hany, st2, acts, cr, hpl, hacc⟩ |
    ⟨hany, nid, hexec, hacc⟩ | ⟨hany, hexec, hacc⟩
  · rw [hacc]
    rcases processLinked_decomp timezone o initIds e (mkEventData chan st title e cur)
        acc.store st2 acts cr hpl with
      ⟨_, heq, _, _⟩ | ⟨p, lm, q, l2, hd1, _, hd3, hd4, _, _⟩
    · show l ∈ st2
      rw [heq]
      exact hmem
    · show l ∈ st2
      rw [hd4]
      rw [hd1] at hmem
      rcases List.mem_append.mp hmem with hx1 | hx2
      · exact List.mem_append.mpr (Or.inl hx1)
      · rcases List.mem_cons.mp hx2 with hx3 | hx4
        · exact absurd (hx3 ▸ hd3) hne
        · simp [hx4]
  · rw [hacc]
    show l ∈ acc.store ++ _
    simp [hmem]
  · rw [hacc]
    exact hmem

theorem processEvent_gids (timezone chan : String) (o : Oracle) (initIds : List String)
    (acc : P1Acc) (e : Event) (acc2 : P1Acc)
    (h : processEvent timezone chan o initIds acc e = Except.ok acc2) :
    acc2.store.map (fun l => l.google_event_id) = acc.store.map (fun l => l.google_event_id) ∨
    (acc2.store.map (fun l => l.google_event_id)
        = acc.store.map (fun l => l.google_event_id) ++ [e.id] ∧
      e.id ∉ acc.store.map (fun l => l.google_event_id)) := by
  obtain ⟨cur, st, title, _, _, _, hcases⟩ :=
    processEvent_inversion timezone chan o initIds acc e acc2 h
  rcases hcases with ⟨hany, st2, acts, cr, hpl, hacc⟩ |
    ⟨hany, nid, hexec, hacc⟩ | ⟨hany, hexec, hacc⟩
  · left
    rw [hacc]
    rcases processLinked_decomp timezone o initIds e (mkEventData chan st title e cur)
        acc.store st2 acts cr hpl with
      ⟨_, heq, _, _⟩ | ⟨p, lm, q, l2, hd1, _, hd3, hd4, hd5, _⟩
    · rw [heq]
    · show st2.map _ = _
      rw [hd4, hd1]
      simp [hd3, hd5]
  · right
    constructor
    · rw [hacc]
      simp
    · intro hmm
      rcases List.mem_map.mp hmm with ⟨x, hx1, hx2⟩
      have hat : acc.store.any (fun l => l.google_event_id = e.id) = true :=
        List.any_eq_true.mpr ⟨x, hx1, by simpa using hx2⟩
      rw [hany] at hat
      simp at hat
  · left
    rw [hacc]

theorem processEvent_created (timezone chan : String) (o : Oracle) (initIds : List String)
    (acc : P1Acc) (e : Event) (acc2 : P1Acc)
    (h : processEvent timezone chan o initIds acc e = Except.ok acc2) :
    ∃ δ, acc2.created = acc.created ++ δ ∧ ∀ s ∈ δ, ∃ i, o.exec e i = some s := by
  obtain ⟨cur, st, title, _, _, _, hcases⟩ :=
    processEvent_inversion timezone chan o initIds acc e acc2 h
  rcases hcases with ⟨hany, st2, acts, cr, hpl, hacc⟩ |
    ⟨hany, nid, hexec, hacc⟩ | ⟨hany, hexec, hacc⟩
  · refine ⟨cr, by rw [hacc], ?_⟩
    rcases processLinked_decomp timezone o initIds e (mkEventData chan st title e cur)
        acc.store st2 acts cr hpl with
      ⟨_, _, _, hcr⟩ | ⟨p, lm, q, l2, _, _, _, _, _, hbf⟩
    · rw [hcr]
      simp
    · rcases hbf with ⟨_, _, _, _, _, hcr⟩ | ⟨_, _, _, _, _, hcr⟩ |
        ⟨_, _, _, _, hcr⟩ | ⟨_, ⟨nid, hex, _, hcr⟩, _⟩ | ⟨_, _, _, _, hcr⟩
      · rw [hcr]; simp
      · rw [hcr]; simp
      · rw [hcr]; simp
      · rw [hcr]
        intro s hs
        rcases List.mem_singleton.mp hs with rfl
        exact ⟨none, hex⟩
      · rw [hcr]; simp
  · refine ⟨[nid], by rw [hacc], ?_⟩
    intro s hs
    rcases List.mem_singleton.mp hs with rfl
    exact ⟨none, hexec⟩
  · exact ⟨[], by rw [hacc]; simp, by simp⟩

theorem processEvent_actions (timezone chan : String) (o : Oracle) (initIds : List String)
    (acc : P1Acc) (e : Event) (acc2 : P1Acc)
    (h : processEvent timezone chan o initIds acc e = Except.ok acc2) :
    ∃ δ, acc2.actions = acc.actions ++ δ ∧ ∀ a ∈ δ, ∀ d g, a ≠ Action.delete d g := by
  obtain ⟨cur, st, title, _, _, _, hcases⟩ :=
    processEvent_inversion timezone chan o initIds acc e acc2 h
  rcases hcases with ⟨hany, st2, acts, cr, hpl, hacc⟩ |
    ⟨hany, nid, hexec, hacc⟩ | ⟨hany, hexec, hacc⟩
  · refine ⟨acts, by rw [hacc], ?_⟩
    rcases processLinked_decomp timezone o initIds e (mkEventData chan st title e cur)
        acc.store st2 acts cr hpl with
      ⟨_, _, hacts, _⟩ | ⟨p, lm, q, l2, _, _, _, _, _, hbf⟩
    · rw [hacts]; simp
    · rcases hbf with ⟨_, _, _, _, hacts, _⟩ | ⟨_, _, _, _, hacts, _⟩ |
        ⟨_, _, _, hacts, _⟩ | ⟨_, _, hacts⟩ | ⟨_, _, _, hacts, _⟩ <;>
        · rw [hacts]
          intro a ha d g
          simp at ha
          try rw [ha]
          try simp
  · refine ⟨[Action.create e], by rw [hacc], ?_⟩
    intro a ha d g
    rcases List.mem_singleton.mp ha with rfl
    simp
  · refine ⟨[Action.create e], by rw [hacc], ?_⟩
    intro a ha d g
    rcases List.mem_singleton.mp ha with rfl
    simp

theorem processEvent_recreate (timezone chan : String) (o : Oracle)
    (acc : P1Acc) (e : Event) (acc2 : P1Acc)
    (h : processEvent timezone chan o [] acc e = Except.ok acc2)
    (hex : ∃ l ∈ acc.store, l.google_event_id = e.id) :
    Action.recreate e ∈ acc2.actions := by
  obtain ⟨cur, st, title, _, _, _, hcases⟩ :=
    processEvent_inversion timezone chan o [] acc e acc2 h
  obtain ⟨l0, hl0, hl0g⟩ := hex
  rcases hcases with ⟨hany, st2, acts, cr, hpl, hacc⟩ |
    ⟨hany, nid, hexec, hacc⟩ | ⟨hany, hexec, hacc⟩
  · rcases processLinked_decomp timezone o [] e (mkEventData chan st title e cur)
        acc.store st2 acts cr hpl with
      ⟨hno, _, _, _⟩ | ⟨p, lm, q, l2, _, _, _, _, _, hbf⟩
    · exact absurd hl0g (hno l0 hl0)
    · rcases hbf with ⟨hdid, _⟩ | ⟨hdid, _⟩ | ⟨hdid, _⟩ |
        ⟨_, _, hacts⟩ | ⟨_, _, _, hacts, _⟩
      · simp at hdid
      · simp at hdid
      · simp at hdid
      · rw [hacc, hacts]
        simp
      · rw [hacc, hacts]
        simp
  · have hat : acc.store.any (fun l => l.google_event_id = e.id) = true :=
      List.any_eq_true.mpr ⟨l0, hl0, by simpa using hl0g⟩
    rw [hany] at hat
    simp at hat
  · have hat : acc.store.any (fun l => l.google_event_id = e.id) = true :=
      List.any_eq_true.mpr ⟨l0, hl0, by simpa using hl0g⟩
    rw [hany] at hat
    simp at hat

theorem processEvent_noop (timezone chan : String) (o : Oracle) (initIds : List String)
    (acc : P1Acc) (e : Event) (title : String)
    (hsum : e.summary = some title)
    (hg : GoodLink timezone e acc.store (fun did => did ∈ initIds)) :
    processEvent timezone chan o initIds acc e = Except.ok acc := by
  obtain ⟨p, l, q, hls, hp, hl, ⟨cur, hsig, hsigl⟩, hdid⟩ := hg
  have hstart : ∃ st, e.start = some st := by
    cases hstart : e.start with
    | some st => exact ⟨st, rfl⟩
    | none =>
      unfold get_event_signature at hsig
      rw [hstart] at hsig
      exact absurd hsig (by simp)
  obtain ⟨st, hstart⟩ := hstart
  have hany : acc.store.any (fun l2 => l2.google_event_id = e.id) = true :=
    List.any_eq_true.mpr ⟨l, by rw [hls]; simp, by simpa using hl⟩
  unfold processEvent
  simp only [hsig, hstart, hsum]
  rw [if_pos hany, hls]
  rw [processLinked_noop timezone o initIds e _ cur hsig p l q hp hl hdid hsigl]
  simp [← hls]

theorem runPhase1_mem_rev (timezone chan : String) (o : Oracle) (initIds : List String) :
    ∀ (es : List Event) (acc acc2 : P1Acc),
      runPhase1 timezone chan o initIds es acc = Except.ok acc2 →
      ∀ x ∈ acc2.store, x ∈ acc.store ∨ x.google_event_id ∈ es.map (fun e => e.id) := by
  intro es
  induction es with
  | nil =>
    intro acc acc2 h x hx
    simp only [runPhase1, Except.ok.injEq] at h
    rw [← h] at hx
    exact Or.inl hx
  | cons e es ih =>
    intro acc acc2 h x hx
    simp only [runPhase1] at h
    cases hpe : processEvent timezone chan o initIds acc e with
    | error err => simp only [hpe] at h; exact absurd h (by simp)
    | ok acc1 =>
      simp only [hpe] at h
      rcases ih acc1 acc2 h x hx with hx1 | hx2
      · rcases processEvent_mem_rev timezone chan o initIds acc e acc1 hpe x hx1 with h1 | h2
        · exact Or.inl h1
        · exact Or.inr (by simp [h2])
      · exact Or.inr (by simp; exact Or.inr (by simpa using hx2))

theorem runPhase1_untouched (timezone chan : String) (o : Oracle) (initIds : List String) :
    ∀ (es : List Event) (acc acc2 : P1Acc),
      runPhase1 timezone chan o initIds es acc = Except.ok acc2 →
      ∀ l ∈ acc.store, l.google_event_id ∉ es.map (fun e => e.id) → l ∈ acc2.store := by
  intro es
  induction es with
  | nil =>
    intro acc acc2 h l hl _
    simp only [runPhase1, Except.ok.injEq] at h
    rw [← h]
    exact hl
  | cons e es ih =>
    intro acc acc2 h l hl hnot
    simp only [runPhase1] at h
    cases hpe : processEvent timezone chan o initIds acc e with
    | error err => simp only [hpe] at h; exact absurd h (by simp)
    | ok acc1 =>
      simp only [hpe] at h
      have hne : l.google_event_id ≠ e.id := by
        intro hq
        exact hnot (by simp [hq])
      have h1 := processEvent_untouched timezone chan o initIds acc e acc1 hpe l hl hne
      exact ih acc1 acc2 h l h1 (fun hq => hnot (by simp [hq]))

theorem runPhase1_gid_multiset (timezone chan : String) (o : Oracle) (initIds : List String) :
    ∀ (es : List Event) (acc acc2 : P1Acc),
      runPhase1 timezone chan o initIds es acc = Except.ok acc2 →
      ∃ δ, acc2.store.map (fun l => l.google_event_id)
          = acc.store.map (fun l => l.google_event_id) ++ δ ∧
        ∀ g ∈ δ, g ∈ es.map (fun e => e.id) := by
  intro es
  induction es with
  | nil =>
    intro acc acc2 h
    simp only [runPhase1, Except.ok.injEq] at h
    exact ⟨[], by rw [← h]; simp, by simp⟩
  | cons e es ih =>
    intro acc acc2 h
    simp only [runPhase1] at h
    cases hpe : processEvent timezone chan o initIds acc e with
    | error err => simp only [hpe] at h; exact absurd h (by simp)
    | ok acc1 =>
      simp only [hpe] at h
      obtain ⟨δ2, hδ2, hδ2m⟩ := ih acc1 acc2 h
      rcases processEvent_gids timezone chan o initIds acc e acc1 hpe with h1 | ⟨h1, _⟩
      · refine ⟨δ2, by rw [hδ2, h1], ?_⟩
        intro g hg
        simp [hδ2m g hg]
      · refine ⟨[e.id] ++ δ2, by rw [hδ2, h1]; simp, ?_⟩
        intro g hg
        rcases List.mem_append.mp hg with hg1 | hg2
        · simp [List.mem_singleton.mp hg1]
        · simp [hδ2m g hg2]

theorem runPhase1_nodup (timezone chan : String) (o : Oracle) (initIds : List String) :
    ∀ (es : List Event) (acc acc2 : P1Acc),
      runPhase1 timezone chan o initIds es acc = Except.ok acc2 →
      (acc.store.map (fun l => l.google_event_id)).Nodup →
      (acc2.store.map (fun l => l.google_event_id)).Nodup := by
  intro es
  induction es with
  | nil =>
    intro acc acc2 h hnd
    simp only [runPhase1, Except.ok.injEq] at h
    rw [← h]
    exact hnd
  | cons e es ih =>
    intro acc acc2 h hnd
    simp only [runPhase1] at h
    cases hpe : processEvent timezone chan o initIds acc e with
    | error err => simp only [hpe] at h; exact absurd h (by simp)
    | ok acc1 =>
      simp only [hpe] at h
      refine ih acc1 acc2 h ?_
      rcases processEvent_gids timezone chan o initIds acc e acc1 hpe with h1 | ⟨h1, h2⟩
      · rw [h1]; exact hnd
      · rw [h1, List.nodup_append]
        refine ⟨hnd, by simp, ?_⟩
        intro a ha hb
        rw [List.mem_singleton.mp hb] at ha
        exact h2 ha

theorem runPhase1_created (timezone chan : String) (o : Oracle) (initIds : List String) :
    ∀ (es : List Event) (acc acc2 : P1Acc),
      runPhase1 timezone chan o initIds es acc = Except.ok acc2 →
      ∃ δ, acc2.created = acc.created ++ δ ∧ ∀ s ∈ δ, ∃ e2 i, o.exec e2 i = some s := by
  intro es
  induction es with
  | nil =>
    intro acc acc2 h
    simp only [runPhase1, Except.ok.injEq] at h
    exact ⟨[], by rw [← h]; simp, by simp⟩
  | cons e es ih =>
    intro acc acc2 h
    simp only [runPhase1] at h
    cases hpe : processEvent timezone chan o initIds acc e with
    | error err => simp only [hpe] at h; exact absurd h (by simp)
    | ok acc1 =>
      simp only [hpe] at h
      obtain ⟨δ1, hδ1, hδ1m⟩ := processEvent_created timezone chan o initIds acc e acc1 hpe
      obtain ⟨δ2, hδ2, hδ2m⟩ := ih acc1 acc2 h
      refine ⟨δ1 ++ δ2, by rw [hδ2, hδ1]; simp, ?_⟩
      intro s hs
      rcases List.mem_append.mp hs with hs1 | hs2
      · obtain ⟨i, hi⟩ := hδ1m s hs1
        exact ⟨e, i, hi⟩
      · exact hδ2m s hs2

theorem runPhase1_actions (timezone chan : String) (o : Oracle) (initIds : List String) :
    ∀ (es : List Event) (acc acc2 : P1Acc),
      runPhase1 timezone chan o initIds es acc = Except.ok acc2 →
      ∃ δ, acc2.actions = acc.actions ++ δ ∧ ∀ a ∈ δ, ∀ d g, a ≠ Action.delete d g := by
  intro es
  induction es with
  | nil =>
    intro acc acc2 h
    simp only [runPhase1, Except.ok.injEq] at h
    exact ⟨[], by rw [← h]; simp, by simp⟩
  | cons e es ih =>
    intro acc acc2 h
    simp only [runPhase1] at h
    cases hpe : processEvent timezone chan o initIds acc e with
    | error err => simp only [hpe] at h; exact absurd h (by simp)
    | ok acc1 =>
      simp only [hpe] at h
      obtain ⟨δ1, hδ1, hδ1m⟩ := processEvent_actions timezone chan o initIds acc e acc1 hpe
      obtain ⟨δ2, hδ2, hδ2m⟩ := ih acc1 acc2 h
      refine ⟨δ1 ++ δ2, by rw [hδ2, hδ1]; simp, ?_⟩
      intro a ha
      rcases List.mem_append.mp ha with ha1 | ha2
      · exact hδ1m a ha1
      · exact hδ2m a ha2

theorem runPhase1_wf (timezone chan : String) (o : Oracle) (initIds : List String) :
    ∀ (es : List Event) (acc acc2 : P1Acc),
      runPhase1 timezone chan o initIds es acc = Except.ok acc2 →
      ∀ e ∈ es, ∃ title, e.summary = some title := by
  intro es
  induction es with
  | nil => intro acc acc2 _ e he; simp at he
  | cons e2 es ih =>
    intro acc acc2 h e he
    simp only [runPhase1] at h
    cases hpe : processEvent timezone chan o initIds acc e2 with
    | error err => simp only [hpe] at h; exact absurd h (by simp)
    | ok acc1 =>
      simp only [hpe] at h
      rcases List.mem_cons.mp he with he1 | he2
      · obtain ⟨cur, st, title, _, _, hsum, _⟩ :=
          processEvent_inversion timezone chan o initIds acc e2 acc1 hpe
        exact ⟨title, by rw [he1]; exact hsum⟩
      · exact ih acc1 acc2 h e he2

theorem runPhase1_recreate (timezone chan : String) (o : Oracle) :
    ∀ (es : List Event) (acc acc2 : P1Acc),
      runPhase1 timezone chan o [] es acc = Except.ok acc2 →
      ∀ e ∈ es, (∃ l ∈ acc.store, l.google_event_id = e.id) →
      Action.recreate e ∈ acc2.actions := by
  intro es
  induction es with
  | nil => intro acc acc2 _ e he; simp at he
  | cons e2 es ih =>
    intro acc acc2 h e he hex
    simp only [runPhase1] at h
    cases hpe : processEvent timezone chan o [] acc e2 with
    | error err => simp only [hpe] at h; exact absurd h (by simp)
    | ok acc1 =>
      simp only [hpe] at h
      rcases List.mem_cons.mp he with he1 | he2
      · have hin : Action.recreate e ∈ acc1.actions := by
          rw [he1]
          exact processEvent_recreate timezone chan o acc e2 acc1 hpe (by rw [← he1]; exact hex)
        obtain ⟨δ, hδ, _⟩ := runPhase1_actions timezone chan o [] es acc1 acc2 h
        rw [hδ]
        exact List.mem_append.mpr (Or.inl hin)
      · have hex1 : ∃ l ∈ acc1.store, l.google_event_id = e.id := by
          obtain ⟨l0, hl0, hl0g⟩ := hex
          have hmm : e.id ∈ acc.store.map (fun l => l.google_event_id) :=
            List.mem_map.mpr ⟨l0, hl0, hl0g⟩
          have hmm1 : e.id ∈ acc1.store.map (fun l => l.google_event_id) := by
            rcases processEvent_gids timezone chan o [] acc e2 acc1 hpe with h1 | ⟨h1, _⟩
            · rw [h1]; exact hmm
            · rw [h1]; simp [List.mem_append.mpr (Or.inl hmm)]
          obtain ⟨l1, hl1, hl1g⟩ := List.mem_map.mp hmm1
          exact ⟨l1, hl1, hl1g⟩
        exact ih acc1 acc2 h e he2 hex1

theorem runPhase1_preserves_good (timezone chan : String) (o : Oracle)
    (initIds staleDids : List String) :
    ∀ (es : List Event) (acc acc2 : P1Acc) (e : Event),
      runPhase1 timezone chan o initIds es acc = Except.ok acc2 →
      (∀ e2 ∈ es, e2.id ≠ e.id) →
      GoodLink timezone e acc.store
        (fun did => (did ∈ initIds ∨ did ∈ acc.created) ∧ did ∉ staleDids) →
      GoodLink timezone e acc2.store
        (fun did => (did ∈ initIds ∨ did ∈ acc2.created) ∧ did ∉ staleDids) := by
  intro es
  induction es with
  | nil =>
    intro acc acc2 e h _ hg
    simp only [runPhase1, Except.ok.injEq] at h
    rw [← h]
    exact hg
  | cons e2 es ih =>
    intro acc acc2 e h hne hg
    simp only [runPhase1] at h
    cases hpe : processEvent timezone chan o initIds acc e2 with
    | error err => simp only [hpe] at h; exact absurd h (by simp)
    | ok acc1 =>
      simp only [hpe] at h
      have hg1 := processEvent_preserves_good timezone chan o initIds staleDids
        acc e2 acc1 e hpe (hne e2 (by simp)) hg
      exact ih acc1 acc2 e h (fun e3 h3 => hne e3 (by simp [h3])) hg1

theorem runPhase1_good (timezone chan : String) (o : Oracle)
    (initIds : List String) (store0 : List Link) (staleDids : List String)
    (hsucc : ∀ e i, (o.exec e i).isSome = true)
    (hfresh : ∀ e i s, o.exec e i = some s → s ∉ staleDids) :
    ∀ (es : List Event) (acc acc2 : P1Acc),
      runPhase1 timezone chan o initIds es acc = Except.ok acc2 →
      (es.map (fun e => e.id)).Nodup →
      (∀ e ∈ es, ∀ l ∈ acc.store, l.google_event_id = e.id → l ∈ store0) →
      (∀ e ∈ es, ∀ l ∈ store0, l.google_event_id = e.id → l.discord_event_id ∉ staleDids) →
      ∀ e ∈ es, GoodLink timezone e acc2.store
        (fun did => (did ∈ initIds ∨ did ∈ acc2.created) ∧ did ∉ staleDids) := by
  intro es
  induction es with
  | nil => intro acc acc2 _ _ _ _ e he; simp at he
  | cons e2 es ih =>
    intro acc acc2 h hnd horig hstalee e he
    simp only [runPhase1] at h
    cases hpe : processEvent timezone chan o initIds acc e2 with
    | error err => simp only [hpe] at h; exact absurd h (by simp)
    | ok acc1 =>
      simp only [hpe] at h
      have hnotin : e2.id ∉ es.map (fun e => e.id) := by
        have := hnd
        simp only [List.map_cons, List.nodup_cons] at this
        exact this.1
      rcases List.mem_cons.mp he with he1 | he2
      · have hg1 := processEvent_good timezone chan o initIds store0 staleDids acc e2 acc1
          hpe (hsucc e2) hfresh (horig e2 (by simp)) (hstalee e2 (by simp))
        have hg2 := runPhase1_preserves_good timezone chan o initIds staleDids es acc1 acc2
          e2 h (fun e3 h3 hp => hnotin (hp ▸ List.mem_map.mpr ⟨e3, h3, rfl⟩)) hg1
        rw [he1]
        exact hg2
      · refine ih acc1 acc2 h (by simpa using hnd.of_cons) ?_
          (fun e3 h3 => hstalee e3 (by simp [h3])) e he2
        intro e3 h3 l hl hlg
        rcases processEvent_mem_rev timezone chan o initIds acc e2 acc1 hpe l hl with h4 | h4
        · exact horig e3 (by simp [h3]) l h4 hlg
        · exfalso
          apply hnotin
          rw [← h4, hlg]
          exact List.mem_map.mpr ⟨e3, h3, rfl⟩

theorem runPhase1_noop (timezone chan : String) (o : Oracle) (initIds : List String) :
    ∀ (es : List Event) (acc : P1Acc),
      (∀ e ∈ es, ∃ title, e.summary = some title) →
      (∀ e ∈ es, GoodLink timezone e acc.store (fun did => did ∈ initIds)) →
      runPhase1 timezone chan o initIds es acc = Except.ok acc := by
  intro es
  induction es with
  | nil => intro acc _ _; rfl
  | cons e es ih =>
    intro acc hwf hg
    obtain ⟨title, hsum⟩ := hwf e (by simp)
    have hpe := processEvent_noop timezone chan o initIds acc e title hsum (hg e (by simp))
    simp only [runPhase1, hpe]
    exact ih acc (fun e2 h2 => hwf e2 (by simp [h2])) (fun e2 h2 => hg e2 (by simp [h2]))

theorem deletePass_store (o : Oracle) (fids : List String) :
    ∀ (ls : List Link) (remote : List String),
      (deletePass o fids ls remote).1
        = ls.filter (fun l => decide (l.google_event_id ∈ fids)) := by
  intro ls
  induction ls with
  | nil => intro remote; rfl
  | cons l lt ih =>
    intro remote
    by_cases hm : l.google_event_id ∈ fids
    · simp only [deletePass, if_pos hm, List.filter_cons]
      simp [hm, ih]
    · simp only [deletePass, if_neg hm, List.filter_cons]
      simp [hm, ih]

theorem deletePass_actions (o : Oracle) (fids : List String) :
    ∀ (ls : List Link) (remote : List String),
      (deletePass o fids ls remote).2.1
        = (ls.filter (fun l => !(l.google_event_id ∈ fids))).map
            (fun l => Action.delete l.discord_event_id l.google_event_id) := by
  intro ls
  induction ls with
  | nil => intro remote; rfl
  | cons l lt ih =>
    intro remote
    by_cases hm : l.google_event_id ∈ fids
    · simp only [deletePass, if_pos hm, List.filter_cons]
      simp [hm, ih]
    · simp only [deletePass, if_neg hm, List.filter_cons]
      simp [hm, ih]

theorem deletePass_remote (o : Oracle) (fids : List String) :
    ∀ (ls : List Link) (remote : List String) (x : String),
      (x ∈ (deletePass o fids ls remote).2.2 ↔
        (x ∈ remote ∧ ∀ l ∈ ls, l.google_event_id ∉ fids →
          o.deleteOk l.discord_event_id = true → x ≠ l.discord_event_id)) := by
  intro ls
  induction ls with
  | nil => intro remote x; simp [deletePass]
  | cons l lt ih =>
    intro remote x
    by_cases hm : l.google_event_id ∈ fids
    · simp only [deletePass, if_pos hm]
      rw [ih]
      constructor
      · rintro ⟨h1, h2⟩
        refine ⟨h1, ?_⟩
        intro l2 hl2 hst hdel
        rcases List.mem_cons.mp hl2 with h3 | h4
        · exact absurd hm (h3 ▸ hst)
        · exact h2 l2 h4 hst hdel
      · rintro ⟨h1, h2⟩
        exact ⟨h1, fun l2 h4 => h2 l2 (by simp [h4])⟩
    · by_cases hd : o.deleteOk l.discord_event_id = true
      · simp only [deletePass, if_neg hm, if_pos hd]
        rw [ih]
        constructor
        · rintro ⟨h1, h2⟩
          obtain ⟨h3, h4⟩ := List.mem_filter.mp h1
          refine ⟨h3, ?_⟩
          intro l2 hl2 hst hdel
          rcases List.mem_cons.mp hl2 with h5 | h6
          · rw [h5]
            simpa using h4
          · exact h2 l2 h6 hst hdel
        · rintro ⟨h1, h2⟩
          refine ⟨List.mem_filter.mpr ⟨h1, ?_⟩, ?_⟩
          · have := h2 l (by simp) hm hd
            simpa using this
          · exact fun l2 h4 => h2 l2 (by simp [h4])
      · simp only [deletePass, if_neg hm, if_neg hd]
        rw [ih]
        constructor
        · rintro ⟨h1, h2⟩
          refine ⟨h1, ?_⟩
          intro l2 hl2 hst hdel
          rcases List.mem_cons.mp hl2 with h5 | h6
          · exact absurd (h5 ▸ hdel) hd
          · exact h2 l2 h6 hst hdel
        · rintro ⟨h1, h2⟩
          exact ⟨h1, fun l2 h4 => h2 l2 (by simp [h4])⟩

theorem deletePass_allkept (o : Oracle) (fids : List String) :
    ∀ (ls : List Link) (remote : List String),
      (∀ l ∈ ls, l.google_event_id ∈ fids) →
      deletePass o fids ls remote = (ls, [], remote) := by
  intro ls
  induction ls with
  | nil => intro remote _; rfl
  | cons l lt ih =>
    intro remote hall
    have hm : l.google_event_id ∈ fids := hall l (by simp)
    simp only [deletePass, if_pos hm, ih remote (fun l2 h2 => hall l2 (by simp [h2]))]

theorem sync_cycle_inversion (timezone chan : String) (o : Oracle) (fe : List Event)
    (rem : List String) (store : List Link) (r : CycleResult)
    (h : sync_events_cycle timezone chan o fe rem store = Except.ok r) :
    ∃ acc, runPhase1 timezone chan o rem fe ⟨store, [], []⟩ = Except.ok acc ∧
      r.store = (deletePass o (fe.map (fun e => e.id)) acc.store (rem ++ acc.created)).1 ∧
      r.actions = acc.actions ++
        (deletePass o (fe.map (fun e => e.id)) acc.store (rem ++ acc.created)).2.1 ∧
      r.remote = (deletePass o (fe.map (fun e => e.id)) acc.store (rem ++ acc.created)).2.2 := by
  unfold sync_events_cycle at h
  cases hp : runPhase1 timezone chan o rem fe ⟨store, [], []⟩ with
  | error err => simp only [hp] at h; exact absurd h (by simp)
  | ok acc =>
    simp only [hp, Except.ok.injEq] at h
    refine ⟨acc, rfl, ?_, ?_, ?_⟩ <;> rw [← h]

/-- The discord ids of the store entries whose google event no longer appears
among the filtered events: exactly the ids that the delete pass will try to
remove from the remote side. -/
def staleDidsOf (fe : List Event) (store : List Link) : List String :=
  (store.filter (fun l => !(l.google_event_id ∈ fe.map (fun e => e.id)))).map
    (fun l => l.discord_event_id)

/-! ## Claim C5 -/

/-- C5 (confirmed): if one cycle over a set of filtered source events (with
distinct source ids) completes with every remote call succeeding, and the
created ids and the ids of still-linked events do not collide with the
discord ids that the delete pass removes, then running the cycle again on the
resulting store and remote state plans zero actions — no create, update,
recreate or delete — and leaves store and remote untouched (every event
compares fingerprint-equal to its stored signature, every linked discord id
is still visible). -/
theorem spec_c5 (timezone chan : String) (o : Oracle) (fe : List Event)
    (rem : List String) (store : List Link) (r : CycleResult)
    (hr : sync_events_cycle timezone chan o fe rem store = Except.ok r)
    (hids : (fe.map (fun e => e.id)).Nodup)
    (hsucc : ∀ e i, (o.exec e i).isSome = true)
    (hkept : ∀ l ∈ store, l.google_event_id ∈ fe.map (fun e => e.id) →
      l.discord_event_id ∉ staleDidsOf fe store)
    (hfresh : ∀ e i s, o.exec e i = some s → s ∉ staleDidsOf fe store) :
    sync_events_cycle timezone chan o fe r.remote r.store
      = Except.ok ⟨r.store, [], r.remote⟩ := by
  obtain ⟨acc, hp1, hst, hact, hrem⟩ :=
    sync_cycle_inversion timezone chan o fe rem store r hr
  have hgood := runPhase1_good timezone chan o rem store (staleDidsOf fe store)
    hsucc hfresh fe ⟨store, [], []⟩ acc hp1 hids
    (fun e _ l hl _ => hl)
    (fun e he l hl hg => hkept l hl (by rw [hg]; exact List.mem_map.mpr ⟨e, he, rfl⟩))
  have hwfes := runPhase1_wf timezone chan o rem fe ⟨store, [], []⟩ acc hp1
  have hstale1 : ∀ l ∈ acc.store, l.google_event_id ∉ fe.map (fun e => e.id) → l ∈ store := by
    intro l hl hnf
    rcases runPhase1_mem_rev timezone chan o rem fe ⟨store, [], []⟩ acc hp1 l hl with h1 | h2
    · exact h1
    · exact absurd h2 hnf
  have hall2 : ∀ l ∈ r.store, l.google_event_id ∈ fe.map (fun e => e.id) := by
    intro l hl
    rw [hst, deletePass_store o (fe.map (fun e => e.id)) acc.store (rem ++ acc.created)] at hl
    have := List.mem_filter.mp hl
    simpa using this.2
  have hgood2 : ∀ e ∈ fe, GoodLink timezone e r.store (fun did => did ∈ r.remote) := by
    intro e he
    obtain ⟨p, l, q, hls, hp, hl, hsigf, hdid1, hdid2⟩ := hgood e he
    have hlkeep : decide (l.google_event_id ∈ fe.map (fun e => e.id)) = true := by
      simp only [decide_eq_true_eq]
      rw [hl]
      exact List.mem_map.mpr ⟨e, he, rfl⟩
    refine ⟨p.filter (fun l => decide (l.google_event_id ∈ fe.map (fun e => e.id))), l,
      q.filter (fun l => decide (l.google_event_id ∈ fe.map (fun e => e.id))), ?_, ?_, hl,
      hsigf, ?_⟩
    · rw [hst, deletePass_store o (fe.map (fun e => e.id)) acc.store (rem ++ acc.created),
        hls]
      simp only [List.filter_append, List.filter_cons]
      simp [hlkeep]
      exact ⟨e, he, hl.symm⟩
    · intro x hx
      exact hp x (List.mem_filter.mp hx).1
    · rw [hrem]
      refine (deletePass_remote o (fe.map (fun e => e.id)) acc.store (rem ++ acc.created)
        l.discord_event_id).mpr ⟨?_, ?_⟩
      · rcases hdid1 with h1 | h2
        · exact List.mem_append.mpr (Or.inl h1)
        · exact List.mem_append.mpr (Or.inr h2)
      · intro l2 hl2 hst2 hdel2 heq
        have hl2store : l2 ∈ store := hstale1 l2 hl2 hst2
        have hmem : l2.discord_event_id ∈ staleDidsOf fe store := by
          unfold staleDidsOf
          refine List.mem_map.mpr ⟨l2, List.mem_filter.mpr ⟨hl2store, ?_⟩, rfl⟩
          simpa using hst2
        rw [heq] at hdid2
        exact hdid2 hmem
  have hnoop := runPhase1_noop timezone chan o r.remote fe ⟨r.store, [], []⟩
    hwfes (fun e he => hgood2 e he)
  unfold sync_events_cycle
  simp only [hnoop]
  have hdp := deletePass_allkept o (fe.map (fun e => e.id)) r.store r.remote hall2
  simp [hdp]

theorem count_delete_map : ∀ (S : List Link) (l : Link),
    l ∈ S → ((S.map (fun x => x.google_event_id)).Nodup) →
    (S.map (fun x => Action.delete x.discord_event_id x.google_event_id)).count
      (Action.delete l.discord_event_id l.google_event_id) = 1 := by
  intro S
  induction S with
  | nil => intro l h; simp at h
  | cons a S ih =>
    intro l hmem hnd
    simp only [List.map_cons, List.nodup_cons] at hnd
    obtain ⟨hnotin, hndS⟩ := hnd
    rcases List.mem_cons.mp hmem with h1 | h2
    · rw [h1]
      rw [List.map_cons, List.count_cons_self]
      have htail : (S.map (fun x => Action.delete x.discord_event_id x.google_event_id)).count
          (Action.delete a.discord_event_id a.google_event_id) = 0 := by
        rw [List.count_eq_zero]
        intro hmm
        obtain ⟨x, hx1, hx2⟩ := List.mem_map.mp hmm
        simp only [Action.delete.injEq] at hx2
        exact hnotin (hx2.2 ▸ List.mem_map.mpr ⟨x, hx1, rfl⟩)
      rw [htail]
    · have hgl : l.google_event_id ∈ S.map (fun x => x.google_event_id) :=
        List.mem_map.mpr ⟨l, h2, rfl⟩
      have hne : a.google_event_id ≠ l.google_event_id := by
        intro hq
        exact hnotin (hq ▸ hgl)
      rw [List.map_cons, List.count_cons_of_ne (by simp [Action.delete.injEq]; intro _; exact fun hq => hne hq.symm)]
      exact ih l h2 hndS

theorem processEvent_keep (timezone chan : String) (o : Oracle) (initIds : List String)
    (acc : P1Acc) (e : Event) (acc2 : P1Acc) (l : Link)
    (hpe : processEvent timezone chan o initIds acc e = Except.ok acc2)
    (hfail : ∀ i, o.exec e i = none)
    (hgl : l.google_event_id = e.id)
    (hl : l ∈ acc.store)
    (hinv : ∀ x ∈ acc.store, x.google_event_id = e.id → x = l) :
    acc2.store = acc.store := by
  obtain ⟨cur, st, title, _, _, _, hcases⟩ :=
    processEvent_inversion timezone chan o initIds acc e acc2 hpe
  rcases hcases with ⟨hany, st2, acts, cr, hpl, hacc⟩ |
    ⟨hany, nid, hexec, hacc⟩ | ⟨hany, hexec, hacc⟩
  · rcases processLinked_decomp timezone o initIds e (mkEventData chan st title e cur)
        acc.store st2 acts cr hpl with
      ⟨hno, _, _, _⟩ | ⟨p, lm, q, l2, hd1, _, hd3, hd4, _, hbf⟩
    · exact absurd hgl (hno l hl)
    · have hlm : lm = l := hinv lm (by rw [hd1]; simp) hd3
      rcases hbf with ⟨_, _, ⟨y, hex⟩, _, _, _⟩ | ⟨_, _, _, hl2, _, _⟩ |
        ⟨_, _, hl2, _, _⟩ | ⟨_, ⟨nid, hex, _, _⟩, _⟩ | ⟨_, hex, hl2, _, _⟩
      · rw [hlm, hfail (some l.discord_event_id)] at hex
        exact absurd hex (by simp)
      · rw [hacc]
        show st2 = acc.store
        rw [hd4, hl2, hd1]
      · rw [hacc]
        show st2 = acc.store
        rw [hd4, hl2, hd1]
      · rw [hfail none] at hex
        exact absurd hex (by simp)
      · rw [hacc]
        show st2 = acc.store
        rw [hd4, hl2, hd1]
  · have hat : acc.store.any (fun x => x.google_event_id = e.id) = true :=
      List.any_eq_true.mpr ⟨l, hl, by simpa using hgl⟩
    rw [hany] at hat
    simp at hat
  · have hat : acc.store.any (fun x => x.google_event_id = e.id) = true :=
      List.any_eq_true.mpr ⟨l, hl, by simpa using hgl⟩
    rw [hany] at hat
    simp at hat

theorem runPhase1_keep_failed (timezone chan : String) (o : Oracle) (initIds : List String)
    (e : Event) (l : Link)
    (hfail : ∀ i, o.exec e i = none)
    (hgl : l.google_event_id = e.id) :
    ∀ (es : List Event) (acc acc2 : P1Acc),
      runPhase1 timezone chan o initIds es acc = Except.ok acc2 →
      (∀ e2 ∈ es, e2.id = e.id → e2 = e) →
      l ∈ acc.store →
      (∀ x ∈ acc.store, x.google_event_id = e.id → x = l) →
      l ∈ acc2.store ∧ (∀ x ∈ acc2.store, x.google_event_id = e.id → x = l) := by
  intro es
  induction es with
  | nil =>
    intro acc acc2 h _ hl hinv
    simp only [runPhase1, Except.ok.injEq] at h
    rw [← h]
    exact ⟨hl, hinv⟩
  | cons e2 es ih =>
    intro acc acc2 h huniq hl hinv
    simp only [runPhase1] at h
    cases hpe : processEvent timezone chan o initIds acc e2 with
    | error err => simp only [hpe] at h; exact absurd h (by simp)
    | ok acc1 =>
      simp only [hpe] at h
      by_cases hcase : e2.id = e.id
      · have he2 : e2 = e := huniq e2 (by simp) hcase
        rw [he2] at hpe
        have hkeep := processEvent_keep timezone chan o initIds acc e acc1 l
          hpe hfail hgl hl hinv
        exact ih acc1 acc2 h (fun e3 h3 => huniq e3 (by simp [h3]))
          (by rw [hkeep]; exact hl) (by rw [hkeep]; exact hinv)
      · have hl1 : l ∈ acc1.store :=
          processEvent_untouched timezone chan o initIds acc e2 acc1 hpe l hl
            (by rw [hgl]; exact fun hq => hcase hq.symm)
        have hinv1 : ∀ x ∈ acc1.store, x.google_event_id = e.id → x = l := by
          intro x hx hxg
          rcases processEvent_mem_rev timezone chan o initIds acc e2 acc1 hpe x hx with
            h3 | h3
          · exact hinv x h3 hxg
          · exact absurd (h3 ▸ hxg : e2.id = e.id) hcase
        exact ih acc1 acc2 h (fun e3 h3 => huniq e3 (by simp [h3])) hl1 hinv1

/-! ## Claim C10 -/

/-- C10 (confirmed): one cycle preserves the at-most-one-SyncLink-per-source
invariant: if the store's google ids are pairwise distinct before the cycle,
they still are afterwards — a fresh link is appended only when the per-event
pass found no link with that google id, the linked branches mutate the first
matching entry in place without changing its google id, and the delete pass
only removes entries. -/
theorem spec_c10 (timezone chan : String) (o : Oracle) (fe : List Event)
    (rem : List String) (store : List Link) (r : CycleResult)
    (hr : sync_events_cycle timezone chan o fe rem store = Except.ok r)
    (hnd : (store.map (fun l => l.google_event_id)).Nodup) :
    (r.store.map (fun l => l.google_event_id)).Nodup := by
  obtain ⟨acc, hp1, hst, _, _⟩ := sync_cycle_inversion timezone chan o fe rem store r hr
  have h1 := runPhase1_nodup timezone chan o rem fe ⟨store, [], []⟩ acc hp1 hnd
  rw [hst, deletePass_store]
  exact h1.sublist ((List.filter_sublist _).map _)

/-! ## Claim C9 -/

/-- C9 (confirmed): a non-success status from the Discord listing yields the
empty list instead of raising, and a cycle run against that empty snapshot
treats every still-eligible linked source event as missing remotely: its
per-event pass takes the recreate branch, so a Recreate action for it appears
among the cycle's actions. -/
theorem spec_c9 (status : Nat) (body : List DiscordEvent) (hstatus : status ≠ 200) :
    get_discord_events status body = [] ∧
    ∀ (timezone chan : String) (o : Oracle) (fe : List Event) (store : List Link)
      (r : CycleResult) (e : Event),
      sync_events_cycle timezone chan o fe
        ((get_discord_events status body).map (fun d => d.id)) store = Except.ok r →
      e ∈ fe → (∃ l ∈ store, l.google_event_id = e.id) →
      Action.recreate e ∈ r.actions := by
  have hempty : get_discord_events status body = [] := by
    unfold get_discord_events
    rw [if_neg hstatus]
  refine ⟨hempty, ?_⟩
  intro timezone chan o fe store r e hr he hex
  rw [hempty] at hr
  simp only [List.map_nil] at hr
  obtain ⟨acc, hp1, _, hact, _⟩ := sync_cycle_inversion timezone chan o fe [] store r hr
  have hin := runPhase1_recreate timezone chan o fe ⟨store, [], []⟩ acc hp1 e he hex
  rw [hact]
  exact List.mem_append.mpr (Or.inl hin)

/-! ## Claim C1 -/

def c1Oracle : Oracle := ⟨fun _ _ => none, fun _ => false⟩

def c1Link : Link := ⟨"g0", "d0", ⟨none, "t", "c", "", none⟩⟩

/-- C1 counterexample: the oracle's remote delete fails (deleteOk is false
for every id), the store holds one link whose google id "g0" is absent from
the (empty) filtered source set, yet after the cycle the store is empty: the
link was removed even though the delete did not succeed, because main.py
567-575 discards the link unconditionally and ignores delete_discord_event's
outcome (the function returns None on every path). -/
theorem spec_c1_counterexample :
    sync_events_cycle "UTC" "chan" c1Oracle [] ["d0"] [c1Link]
      = Except.ok ⟨[], [Action.delete "d0" "g0"], ["d0"]⟩ ∧
    c1Oracle.deleteOk "d0" = false :=
  ⟨rfl, rfl⟩

/-- C1 (corrected): for a store with pairwise-distinct google ids, every
SyncLink whose google id is absent from the filtered source set yields
exactly one Delete action during the cycle — but the link is removed from
the store unconditionally, whether or not the remote delete succeeded: no
link with that google id survives into the resulting store, so a failed
delete is not retried on the next cycle. -/
theorem spec_c1 (timezone chan : String) (o : Oracle) (fe : List Event)
    (rem : List String) (store : List Link) (r : CycleResult) (l : Link)
    (hr : sync_events_cycle timezone chan o fe rem store = Except.ok r)
    (hnd : (store.map (fun x => x.google_event_id)).Nodup)
    (hl : l ∈ store)
    (hstale : l.google_event_id ∉ fe.map (fun e => e.id)) :
    r.actions.count (Action.delete l.discord_event_id l.google_event_id) = 1 ∧
    ∀ l2 ∈ r.store, l2.google_event_id ≠ l.google_event_id := by
  obtain ⟨acc, hp1, hst, hact, _⟩ := sync_cycle_inversion timezone chan o fe rem store r hr
  have hl1 : l ∈ acc.store :=
    runPhase1_untouched timezone chan o rem fe ⟨store, [], []⟩ acc hp1 l hl hstale
  have hnd1 : (acc.store.map (fun x => x.google_event_id)).Nodup :=
    runPhase1_nodup timezone chan o rem fe ⟨store, [], []⟩ acc hp1 hnd
  constructor
  · rw [hact, List.count_append]
    have hc1 : acc.actions.count (Action.delete l.discord_event_id l.google_event_id) = 0 := by
      obtain ⟨δ, hδ, hδn⟩ := runPhase1_actions timezone chan o rem fe ⟨store, [], []⟩ acc hp1
      rw [List.count_eq_zero]
      intro hmm
      rw [hδ] at hmm
      rcases List.mem_append.mp hmm with h3 | h3
      · exact absurd h3 (List.not_mem_nil _)
      · exact hδn _ h3 l.discord_event_id l.google_event_id rfl
    have hc2 : ((deletePass o (fe.map (fun e => e.id)) acc.store (rem ++ acc.created)).2.1).count
        (Action.delete l.discord_event_id l.google_event_id) = 1 := by
      rw [deletePass_actions]
      apply count_delete_map
      · exact List.mem_filter.mpr ⟨hl1, by simpa using hstale⟩
      · exact hnd1.sublist ((List.filter_sublist _).map _)
    rw [hc1, hc2]
  · intro l2 hl2 hq
    rw [hst, deletePass_store] at hl2
    have hfl := (List.mem_filter.mp hl2).2
    rw [hq] at hfl
    simp only [decide_eq_true_eq] at hfl
    exact hstale hfl

/-- C1 witness instantiation data: one stale link, failing remote delete. -/
theorem spec_c1_witness :
    (CycleResult.mk [] [Action.delete "d0" "g0"] ["d0"]).actions.count
      (Action.delete c1Link.discord_event_id c1Link.google_event_id) = 1 ∧
    ∀ l2 ∈ (CycleResult.mk [] [Action.delete "d0" "g0"] ["d0"]).store,
      l2.google_event_id ≠ c1Link.google_event_id :=
  spec_c1 "UTC" "chan" c1Oracle [] ["d0"] [c1Link]
    ⟨[], [Action.delete "d0" "g0"], ["d0"]⟩ c1Link
    rfl (by decide) (by decide) (by decide)

/-! ## Claim C3 -/

theorem rateLimitRetryGo_le : ∀ (k : Nat) (rs : Nat → ApiResponse) (resp : ApiResponse)
    (next count : Nat) (sleeps : List Rat), 3 - count ≤ k → count ≤ 3 →
    (rateLimitRetryGo rs resp next count sleeps).retries ≤ 3 := by
  intro k
  induction k with
  | zero =>
    intro rs resp next count sleeps hk hc
    rw [rateLimitRetryGo, if_neg (fun hq => absurd hq.2 (by omega))]
    exact hc
  | succ k ih =>
    intro rs resp next count sleeps hk hc
    rw [rateLimitRetryGo]
    by_cases h : resp.status = 429 ∧ count < 3
    · rw [if_pos h]
      exact ih rs (rs next) (next + 1) (count + 1) (sleeps ++ [sleepFor resp]) (by omega) (by omega)
    · rw [if_neg h]
      exact hc

def rs4 : Nat → ApiResponse := fun _ => ⟨429, RateLimitBody.parsed (some 2), none⟩

def respNone : ApiResponse := ⟨429, RateLimitBody.parsed none, none⟩

def respBad : ApiResponse := ⟨429, RateLimitBody.unparseable, none⟩

def c3Event : Event :=
  { id := "g1", summary := some "T", description := none, location := none,
    start := some ⟨some "2026-01-01T10:00:00Z", none⟩,
    end_ := some ⟨some "2026-01-01T11:00:00Z", none⟩,
    creator := none, attendees := none }

def c3Oracle : Oracle := ⟨fun _ _ => none, fun _ => true⟩

def c3Link : Link := ⟨"g1", "d9", ⟨none, "t", "c", "", none⟩⟩

def c3R : CycleResult := ⟨[c3Link], [Action.update c3Event "d9"], ["d9"]⟩

/-- C3 (confirmed): the rate-limit loop performs at most 3 retries for any
response trace; before each retry it sleeps the parsed Retry-After hint plus
the 0.5-second margin, 5.5 seconds when the hint key is absent, and 5 seconds
when the body is unparseable; a trace of 4 consecutive 429 responses yields
exactly 3 retries, the final 429 response, the three recorded sleeps, and a
None (failure) result; and in a cycle where every create/update attempt for
an event fails, that event's SyncLink entry survives into the resulting
store unchanged. -/
theorem spec_c3 (rs : Nat → ApiResponse) :
    (rateLimitRetry rs).retries ≤ 3 ∧
    (∀ (r : ApiResponse) (q : Rat), r.body = RateLimitBody.parsed (some q) →
      sleepFor r = q + 1 / 2) ∧
    (∀ r : ApiResponse, r.body = RateLimitBody.parsed none → sleepFor r = 5 + 1 / 2) ∧
    (∀ r : ApiResponse, r.body = RateLimitBody.unparseable → sleepFor r = 5) ∧
    ((∀ i, i < 4 → (rs i).status = 429) →
      rateLimitRetry rs
        = ⟨rs 3, 3, [sleepFor (rs 0), sleepFor (rs 1), sleepFor (rs 2)]⟩ ∧
      create_or_update_result rs = none) ∧
    (∀ (timezone chan : String) (o : Oracle) (fe : List Event) (rem : List String)
        (store : List Link) (res : CycleResult) (e : Event) (l : Link),
      sync_events_cycle timezone chan o fe rem store = Except.ok res →
      (fe.map (fun e2 => e2.id)).Nodup →
      (store.map (fun x => x.google_event_id)).Nodup →
      (∀ i, o.exec e i = none) →
      e ∈ fe → l ∈ store → l.google_event_id = e.id →
      l ∈ res.store) := by
  refine ⟨rateLimitRetryGo_le 3 rs (rs 0) 1 0 [] (by omega) (by omega),
    ?_, ?_, ?_, ?_, ?_⟩
  · intro r q hb; simp [sleepFor, hb]
  · intro r hb; simp [sleepFor, hb]
  · intro r hb; simp [sleepFor, hb]
  · intro h429
    have h0 := h429 0 (by omega)
    have h1 := h429 1 (by omega)
    have h2 := h429 2 (by omega)
    have h3 := h429 3 (by omega)
    have hloop : rateLimitRetry rs
        = ⟨rs 3, 3, [sleepFor (rs 0), sleepFor (rs 1), sleepFor (rs 2)]⟩ := by
      rw [rateLimitRetry]
      rw [rateLimitRetryGo, if_pos ⟨h0, by omega⟩]
      rw [rateLimitRetryGo, if_pos ⟨h1, by omega⟩]
      rw [rateLimitRetryGo, if_pos ⟨h2, by omega⟩]
      rw [rateLimitRetryGo, if_neg (fun hq => absurd hq.2 (by omega))]
      rfl
    refine ⟨hloop, ?_⟩
    simp only [create_or_update_result, hloop]
    simp [h3]
  · intro timezone chan o fe rem store res e l hr hids hnd hfail he hl hgl
    obtain ⟨acc, hp1, hst, _, _⟩ := sync_cycle_inversion timezone chan o fe rem store res hr
    have huniq : ∀ e2 ∈ fe, e2.id = e.id → e2 = e := by
      intro e2 h2 hq
      exact List.inj_on_of_nodup_map hids h2 he hq
    have hinv : ∀ x ∈ store, x.google_event_id = e.id → x = l := by
      intro x hx hxq
      exact List.inj_on_of_nodup_map hnd hx hl (hxq.trans hgl.symm)
    have hkeep := runPhase1_keep_failed timezone chan o rem e l hfail hgl fe
      ⟨store, [], []⟩ acc hp1 huniq hl hinv
    rw [hst, deletePass_store]
    refine List.mem_filter.mpr ⟨hkeep.1, ?_⟩
    simp only [decide_eq_true_eq]
    rw [hgl]
    exact List.mem_map.mpr ⟨e, he, rfl⟩

/-- C3 witness instantiation data: a trace of identical 429 responses with a
parsed hint of 2 seconds, and a one-event cycle whose every create/update
attempt fails. -/
theorem spec_c3_witness :
    (rateLimitRetry rs4).retries ≤ 3 ∧
    sleepFor (rs4 0) = 2 + 1 / 2 ∧
    sleepFor respNone = 5 + 1 / 2 ∧
    sleepFor respBad = 5 ∧
    (rateLimitRetry rs4
        = ⟨rs4 3, 3, [sleepFor (rs4 0), sleepFor (rs4 1), sleepFor (rs4 2)]⟩ ∧
      create_or_update_result rs4 = none) ∧
    c3Link ∈ c3R.store := by
  have h := spec_c3 rs4
  refine ⟨h.1, h.2.1 (rs4 0) 2 rfl, h.2.2.1 respNone rfl, h.2.2.2.1 respBad rfl,
    h.2.2.2.2.1 (fun i _ => rfl), ?_⟩
  exact h.2.2.2.2.2 "UTC" "chan" c3Oracle [c3Event] ["d9"] [c3Link] c3R c3Event c3Link
    rfl (by decide) (by decide) (fun i => rfl) (by decide) (by decide) (by decide)

/-! ## Witness data for C5, C9, C10 -/

def c5Event : Event :=
  { id := "g1", summary := some "T", description := none, location := none,
    start := some ⟨some "2026-01-01T10:00:00Z", none⟩,
    end_ := some ⟨some "2026-01-01T11:00:00Z", none⟩,
    creator := none, attendees := none }

def c5Oracle : Oracle := ⟨fun _ _ => some "d1", fun _ => true⟩

def c5Sig : Signature :=
  { title := "T", description := "", start_time := some "2026-01-01T10:00:00Z",
    end_time := some "2026-01-01T11:00:00Z", location := "", is_discord_event := false }

def c5Link : Link := ⟨"g1", "d1", ⟨some "2026-01-01T10:00:00Z", "T", "chan", "", some c5Sig⟩⟩

/-- C5 witness instantiation data: one fresh event created on the first
cycle; the second cycle over the resulting store and remote snapshot plans
zero actions. -/
theorem spec_c5_witness :
    sync_events_cycle "UTC" "chan" c5Oracle [c5Event] ["d1"] [c5Link]
      = Except.ok ⟨[c5Link], [], ["d1"]⟩ :=
  spec_c5 "UTC" "chan" c5Oracle [c5Event] [] []
    ⟨[c5Link], [Action.create c5Event], ["d1"]⟩
    rfl (by decide) (fun e i => rfl)
    (fun l hl => absurd hl (List.not_mem_nil _))
    (fun e i s hq => by simp [staleDidsOf])

def c9Event : Event :=
  { id := "g2", summary := some "T", description := none, location := none,
    start := some ⟨some "2026-01-01T10:00:00Z", none⟩,
    end_ := some ⟨some "2026-01-01T11:00:00Z", none⟩,
    creator := none, attendees := none }

def c9Oracle : Oracle := ⟨fun _ _ => some "n2", fun _ => true⟩

def c9Link : Link := ⟨"g2", "d2", ⟨none, "t", "c", "", none⟩⟩

def c9Sig : Signature :=
  { title := "T", description := "", start_time := some "2026-01-01T10:00:00Z",
    end_time := some "2026-01-01T11:00:00Z", location := "", is_discord_event := false }

def c9R : CycleResult :=
  ⟨[⟨"g2", "n2", ⟨some "2026-01-01T10:00:00Z", "T", "chan", "", some c9Sig⟩⟩],
    [Action.recreate c9Event], ["n2"]⟩

/-- C9 witness instantiation data: a 500 listing response and a one-event
cycle over the resulting empty id snapshot, recreating the linked event. -/
theorem spec_c9_witness :
    get_discord_events 500 [⟨"x"⟩] = [] ∧ Action.recreate c9Event ∈ c9R.actions := by
  have h := spec_c9 500 [⟨"x"⟩] (by decide)
  exact ⟨h.1, h.2 "UTC" "chan" c9Oracle [c9Event] [c9Link] c9R c9Event rfl (by decide)
    ⟨c9Link, by decide, rfl⟩⟩

def c10Oracle : Oracle := ⟨fun _ _ => none, fun _ => true⟩

def c10Link1 : Link := ⟨"ga", "da", ⟨none, "t", "c", "", none⟩⟩

def c10Link2 : Link := ⟨"gb", "db", ⟨none, "t", "c", "", none⟩⟩

/-- C10 witness instantiation data: a two-link store with distinct google
ids, both deleted during the cycle. -/
theorem spec_c10_witness :
    ((CycleResult.mk [] [Action.delete "da" "ga", Action.delete "db" "gb"] []).store.map
      (fun l => l.google_event_id)).Nodup :=
  spec_c10 "UTC" "chan" c10Oracle [] [] [c10Link1, c10Link2]
    ⟨[], [Action.delete "da" "ga", Action.delete "db" "gb"], []⟩ rfl (by decide)

end GCal2Discord
